import Mathlib

set_option maxRecDepth 8192

/-!
Shallow embedding of the esvg document-tree core: the `Value` wrapper
(src/value.rs), the `Node`/`Element` data model and its operations
(src/lib.rs), the two serializers (`Display` and `to_pretty_string`,
src/lib.rs), and the stack-machine parser `parse_string` (src/read.rs).

Rust strings are modelled as `List Char` (named `Str`).  The attribute
`HashMap<String, Value>` is modelled as an association list with
insert-overwrite semantics; all observable behaviour goes through
lookup or through the serializers, which sort the attributes by key,
so the association-list representative is faithful.

The event stream produced by the external `quick_xml` reader is not part
of this repository; it is modelled from the spec (section 4.4: start-tag,
empty-tag, end-tag, text, end-of-stream, with name-mismatch and stray
end-tag checks and trimming of whitespace-only text) by the lexer below.
-/

namespace Esvg

/-- Strings of the Rust source, modelled as lists of characters. -/
abbrev Str := List Char

/-- The whitespace characters trimmed by the reader (space, tab, CR, LF). -/
def wsChar (c : Char) : Bool := c == ' ' || c == '\t' || c == '\r' || c == '\n'

/-- Trim leading whitespace. -/
def trimL (s : Str) : Str := s.dropWhile wsChar

/-- Trim trailing whitespace. -/
def trimR (s : Str) : Str := (s.reverse.dropWhile wsChar).reverse

/-- Trim both ends. -/
def trimS (s : Str) : Str := trimR (trimL s)

/-- Attribute value wrapper (src/value.rs `Value`): an owned text payload. -/
structure Value where
  value : Str

instance : BEq Value := ⟨fun a b => a.value == b.value⟩

instance : LawfulBEq Value where
  rfl := by intro a; show (a.value == a.value) = true; simp
  eq_of_beq := by
    intro a b h
    cases a; cases b
    have : _ = _ := eq_of_beq (α := Str) h
    simp_all

/-- `Value::to_string_bare` (src/value.rs): the raw, unquoted text. -/
def Value.to_string_bare (v : Value) : Str := v.value

/-- `impl fmt::Display for Value` (src/value.rs lines 16-25): wrap in
double quotes, or in single quotes when the text contains a double
quote; no escaping of the text itself. -/
def Value.display (v : Value) : Str :=
  if v.value.contains '"' then '\'' :: (v.value ++ ['\''])
  else '"' :: (v.value ++ ['"'])

mutual
/-- `Node` (src/lib.rs): a node of the xml tree. -/
inductive Node where
  | text : Str → Node
  | element : Element → Node
  | comment : Str → Node
/-- `Element` (src/lib.rs): tag name, attribute map, ordered children. -/
inductive Element where
  | mk : Str → List (Str × Value) → NodeList → Element
/-- The ordered child list of an element (`Vec<Node>` in the source). -/
inductive NodeList where
  | nil : NodeList
  | cons : Node → NodeList → NodeList
end

/-- Tag name of an element. -/
def Element.name : Element → Str
  | .mk n _ _ => n

/-- Attribute map of an element (association list with unique keys). -/
def Element.attributes : Element → List (Str × Value)
  | .mk _ a _ => a

/-- Children of an element. -/
def Element.children : Element → NodeList
  | .mk _ _ c => c

/-- Append one node at the end of a child list (`Vec::push`). -/
def NodeList.push : NodeList → Node → NodeList
  | .nil, n => .cons n .nil
  | .cons m rest, n => .cons m (rest.push n)

/-- Whether a child list is empty (`Vec::is_empty`). -/
def NodeList.isNil : NodeList → Bool
  | .nil => true
  | .cons _ _ => false

/-- `Element::new` (src/lib.rs): tag name, no attributes, no children. -/
def Element.new (name : Str) : Element := .mk name [] .nil

/-- Lookup in a string-keyed map modelled as an association list
(`HashMap::get`). -/
def lookupP {α : Type} : List (Str × α) → Str → Option α
  | [], _ => none
  | (k', v) :: rest, k => if k' = k then some v else lookupP rest k

/-- Insert-or-overwrite in a string-keyed map modelled as an
association list (`HashMap::insert`). -/
def insertP {α : Type} (m : List (Str × α)) (k : Str) (v : α) : List (Str × α) :=
  m.filter (fun p => decide ¬ p.1 = k) ++ [(k, v)]

/-- Look an attribute key up (`HashMap::get` on the attribute map). -/
def lookupA : List (Str × Value) → Str → Option Value := lookupP

/-- `Element::set` (src/lib.rs): insert-or-overwrite an attribute. -/
def Element.set (el : Element) (k : Str) (v : Value) : Element :=
  .mk el.name (insertP el.attributes k v) el.children

/-- `Element::get` (src/lib.rs): bare text of an attribute, if present. -/
def Element.get (el : Element) (k : Str) : Option Str :=
  (lookupA el.attributes k).map Value.to_string_bare

/-- `Element::add` (src/lib.rs): append an owned copy of a child element. -/
def Element.add (el child : Element) : Element :=
  .mk el.name el.attributes (el.children.push (.element child))

/-- `Element::add_node` (src/lib.rs): append an arbitrary node. -/
def Element.add_node (el : Element) (n : Node) : Element :=
  .mk el.name el.attributes (el.children.push n)

/-- The literal attribute key `"style"`. -/
def styleKey : Str := "style".toList

/-- `Element::add_style` (src/lib.rs lines 147-167): append a
`key:value` clause to the `style` attribute, creating it if absent. -/
def Element.add_style (el : Element) (k v : Str) : Element :=
  let new_style : Str :=
    match lookupA el.attributes styleKey with
    | some existing => existing.to_string_bare ++ ';' :: (k ++ ':' :: v)
    | none => k ++ ':' :: v
  el.set styleKey ⟨new_style⟩

/-- The error type (src/error.rs), restricted to the variants the core
can produce. -/
inductive Error where
  | malformedStyle
  | xmlError
  | xmlAttrError
  | emptyDocument
deriving DecidableEq

/-- Rust `str::split` on a single separator character: `""` yields
`[""]`, and every separator starts a new piece. -/
def splitCh (sep : Char) : Str → List Str
  | [] => [[]]
  | c :: rest =>
    if c = sep then [] :: splitCh sep rest
    else
      match splitCh sep rest with
      | h :: t => (c :: h) :: t
      | [] => [[c]]

/-- Rust `str::split_once`: split at the first occurrence of the
separator, or `None` when it is absent. -/
def splitOnceCh (sep : Char) : Str → Option (Str × Str)
  | [] => none
  | c :: rest =>
    if c = sep then some ([], rest)
    else (splitOnceCh sep rest).map (fun p => (c :: p.1, p.2))

/-- Insert-or-overwrite into the result map of `style_map`
(`HashMap::insert` on `HashMap<String, String>`). -/
def insertS (m : List (Str × Str)) (k v : Str) : List (Str × Str) := insertP m k v

/-- Lookup in a `HashMap<String, String>` model. -/
def lookupS : List (Str × Str) → Str → Option Str := lookupP

/-- The clause loop of `Element::style_map`: split each clause at the
first `:`, or fail with `MalformedStyle`. -/
def styleFold (m : List (Str × Str)) : List Str → Except Error (List (Str × Str))
  | [] => .ok m
  | clause :: rest =>
    match splitOnceCh ':' clause with
    | some (k, v) => styleFold (insertS m k v) rest
    | none => .error .malformedStyle

/-- `Element::style_map` (src/lib.rs lines 169-183): decode the `style`
attribute into a mapping; absent `style` decodes to the empty mapping. -/
def Element.style_map (el : Element) : Except Error (List (Str × Str)) :=
  match lookupA el.attributes styleKey with
  | some v => styleFold [] (splitCh ';' v.to_string_bare)
  | none => .ok []

/-- `Element::shallow_clone` (src/lib.rs): same tag and attributes, no
children. -/
def Element.shallow_clone (el : Element) : Element :=
  .mk el.name el.attributes .nil

/-! ### Serializers -/

/-- Lexicographic comparison of strings, matching Rust's ordering of
`&str` (code-point order, which equals UTF-8 byte order). -/
def leStr : Str → Str → Bool
  | [], _ => true
  | _ :: _, [] => false
  | c :: cs, d :: ds => if c < d then true else if d < c then false else leStr cs ds

/-- The key order used to sort attributes at the serialization boundary
(`attributes.sort_by_key(|pair| pair.0.as_str())`). -/
def attrLe (a b : Str × Value) : Prop := leStr a.1 b.1 = true

instance : DecidableRel attrLe := fun _ _ => inferInstanceAs (Decidable (_ = true))

/-- Sort the attribute pairs by key. -/
def sortAttrs (attrs : List (Str × Value)) : List (Str × Value) :=
  List.insertionSort attrLe attrs

/-- Render already-sorted attribute pairs, each as ` key=quoted-value`. -/
def attrsRender : List (Str × Value) → Str
  | [] => []
  | (k, v) :: rest => ' ' :: (k ++ '=' :: (v.display ++ attrsRender rest))

mutual
/-- `impl fmt::Display for Element` (src/lib.rs lines 231-249): the
compact serializer. -/
def Element.toStr : Element → Str
  | .mk name attrs kids =>
    match kids with
    | .nil => '<' :: (name ++ attrsRender (sortAttrs attrs) ++ " />".toList)
    | .cons n rest =>
      '<' :: (name ++ attrsRender (sortAttrs attrs) ++ '>' :: '\n' ::
        (kidsToStr (.cons n rest) ++ '<' :: '/' :: (name ++ ['>'])))
/-- Children loop of the compact serializer: one rendered line per child. -/
def kidsToStr : NodeList → Str
  | .nil => []
  | .cons n rest => Node.toStr n ++ '\n' :: kidsToStr rest
/-- `impl fmt::Display for Node` (src/lib.rs): text raw, elements
recursively, comments as `<!-- text -->`. -/
def Node.toStr : Node → Str
  | .text s => s
  | .element e => Element.toStr e
  | .comment c => "<!-- ".toList ++ c ++ " -->".toList
end

/-- `"\t".repeat(depth)`. -/
def tabs (n : Nat) : Str := List.replicate n '\t'

mutual
/-- `Element::pretty_fmt_internal` (src/lib.rs lines 205-228): the
pretty serializer, threading the output buffer. -/
def Element.pretty_fmt_internal : Element → Str → Nat → Str
  | .mk name attrs kids, buff, depth =>
    let buff := buff ++ tabs depth ++ '<' :: (name ++ attrsRender (sortAttrs attrs))
    match kids with
    | .nil => buff ++ " />\n".toList
    | .cons n rest =>
      kidsPretty (.cons n rest) (buff ++ '>' :: ['\n']) depth ++
        tabs depth ++ '<' :: '/' :: (name ++ ['>', '\n'])
/-- Children loop of the pretty serializer. -/
def kidsPretty : NodeList → Str → Nat → Str
  | .nil, buff, _ => buff
  | .cons n rest, buff, depth => kidsPretty rest (nodePretty n buff depth) depth
/-- One child in the pretty serializer: text appended raw, elements one
level deeper, comments as `<!-- text -->`. -/
def nodePretty : Node → Str → Nat → Str
  | .text s, buff, _ => buff ++ s
  | .element e, buff, depth => Element.pretty_fmt_internal e buff (depth + 1)
  | .comment c, buff, _ => buff ++ "<!-- ".toList ++ c ++ " -->".toList
end

/-- The fixed two-line preamble emitted before a root tagged `svg`. -/
def preamble : Str :=
  "<?xml version=\"1.0\" encoding=\"UTF-8\"?>\n<!DOCTYPE svg PUBLIC \"-//W3C//DTD SVG 1.0//EN\" \"http://www.w3.org/TR/2001/REC-SVG-20010904/DTD/svg10.dtd\">\n".toList

/-- `Element::to_pretty_string` (src/lib.rs): preamble for an `svg`
root, then the pretty rendering at depth 0. -/
def Element.to_pretty_string (el : Element) : Str :=
  let buff := if el.name == "svg".toList then preamble else []
  el.pretty_fmt_internal buff 0

/-! ### Parser

`parse_string` (src/read.rs lines 8-50) is driven by the events of the
external `quick_xml` reader.  The reader itself is modelled from the
spec (section 4.4) by `lexLoop` below: a linear event stream of
start-tag, empty-tag, end-tag, text (whitespace-trimmed, with
whitespace-only text skipped, per `trim_text(true)`), and other events
(declarations, doctypes, comments); end-tag names are checked against
the open tags, a mismatch or stray end-tag being a reader error; the
stream is lazy, so events before a reader error are still delivered. -/

/-- Decode one named character entity reference. -/
def entRef (s : Str) : Option Char :=
  if s == "amp".toList then some '&'
  else if s == "lt".toList then some '<'
  else if s == "gt".toList then some '>'
  else if s == "quot".toList then some '"'
  else if s == "apos".toList then some '\'' else none

/-- Worker for `unescape`, with fuel bounding the recursion. -/
def unescapeGo : Nat → Str → Option Str
  | 0, _ => none
  | _ + 1, [] => some []
  | fuel + 1, c :: rest =>
    if c == '&' then
      match splitOnceCh ';' rest with
      | none => none
      | some (nm, rest') =>
        match entRef nm with
        | none => none
        | some ch => (unescapeGo fuel rest').map (ch :: ·)
    else (unescapeGo fuel rest).map (c :: ·)

/-- Entity unescaping of text and attribute values (`unescape` /
`unescape_value` of the reader): replaces `&name;` references, and
fails on a malformed or unknown reference. -/
def unescape (s : Str) : Option Str := unescapeGo (s.length + 1) s

/-- The reader's events (spec section 4.4). -/
inductive XEvent where
  | startE : Str → List (Str × Str) → XEvent
  | emptyE : Str → List (Str × Str) → XEvent
  | endE : Str → XEvent
  | textE : Str → XEvent
  | otherE : XEvent

/-- Reader-level failures (wrapped as `Error::XMLError` /
`Error::XMLAttrError` by `parse_string`). -/
inductive LexErr where
  | strayEnd
  | nameMismatch
  | badTag
  | badAttr
  | fuelOut
deriving DecidableEq

/-- A character that may appear in a scanned tag name (scanning stops
at whitespace, `/` and `>`). -/
def tagNameChar (c : Char) : Bool := !(wsChar c || c == '/' || c == '>')

/-- A character that may appear in a scanned end-tag name. -/
def endNameChar (c : Char) : Bool := !(wsChar c || c == '>')

/-- A character that may appear in a scanned attribute key. -/
def attrKeyChar (c : Char) : Bool :=
  !(wsChar c || c == '=' || c == '>' || c == '/' || c == '<' || c == '"' || c == '\'')

/-- Scan the attribute list of a tag: `key=quoted-value` pairs
separated by whitespace, ended by `>` or `/>`.  Returns the pairs, the
self-closing flag, and the input after the closing `>`. -/
def lexAttrs : Nat → Str → Except LexErr (List (Str × Str) × Bool × Str)
  | 0, _ => .error .fuelOut
  | fuel + 1, s =>
    match s.dropWhile wsChar with
    | [] => .error .badTag
    | c :: r1 =>
      if c = '>' then .ok ([], false, r1)
      else if c = '/' then
        match r1 with
        | [] => .error .badTag
        | c2 :: r2 => if c2 = '>' then .ok ([], true, r2) else .error .badTag
      else if attrKeyChar c then
        match (c :: r1).dropWhile attrKeyChar with
        | [] => .error .badAttr
        | c3 :: r3 =>
          if c3 = '=' then
            match r3 with
            | [] => .error .badAttr
            | q :: r4 =>
              if q = '"' ∨ q = '\'' then
                match r4.dropWhile (fun ch => !(ch == q)) with
                | [] => .error .badAttr
                | _ :: r5 =>
                  (lexAttrs fuel r5).map (fun out =>
                    (((c :: r1).takeWhile attrKeyChar,
                      r4.takeWhile (fun ch => !(ch == q))) :: out.1, out.2.1, out.2.2))
              else .error .badAttr
          else .error .badAttr
      else .error .badAttr

/-- Scan one tag, given the input just after `<` and the stack of open
tag names.  Produces the event, the new open-tag stack, and the rest of
the input. -/
def lexTag (s : Str) (opened : List Str) : Except LexErr (XEvent × List Str × Str) :=
  match s with
  | [] => .error .badTag
  | c :: r1 =>
    if c = '?' ∨ c = '!' then
      match r1.dropWhile (fun ch => !(ch == '>')) with
      | [] => .error .badTag
      | _ :: r2 => .ok (.otherE, opened, r2)
    else if c = '/' then
      match (r1.dropWhile endNameChar).dropWhile wsChar with
      | [] => .error .badTag
      | c2 :: r2 =>
        if c2 = '>' then
          match opened with
          | [] => .error .strayEnd
          | o :: os =>
            if o = r1.takeWhile endNameChar then
              .ok (.endE (r1.takeWhile endNameChar), os, r2)
            else .error .nameMismatch
        else .error .badTag
    else if tagNameChar c then
      match lexAttrs (((c :: r1).dropWhile tagNameChar).length + 1)
          ((c :: r1).dropWhile tagNameChar) with
      | .error e => .error e
      | .ok (attrs, true, rest') =>
        .ok (.emptyE ((c :: r1).takeWhile tagNameChar) attrs, opened, rest')
      | .ok (attrs, false, rest') =>
        .ok (.startE ((c :: r1).takeWhile tagNameChar) attrs,
          (c :: r1).takeWhile tagNameChar :: opened, rest')
    else .error .badTag

/-- The trimmed-text event of a pending text run, if any
(`trim_text(true)`: whitespace-only runs produce no event). -/
def emitText (pending : Str) : List XEvent :=
  match trimS pending with
  | [] => []
  | t => [.textE t]

/-- The reader loop: accumulate text until `<`, scan tags, and deliver
the event stream together with the reader error that ends it, if any. -/
def lexLoop : Nat → Str → Str → List Str → List XEvent × Option LexErr
  | 0, _, _, _ => ([], some .fuelOut)
  | _ + 1, [], pending, _ => (emitText pending, none)
  | fuel + 1, c :: rest, pending, opened =>
    if c = '<' then
      match lexTag rest opened with
      | .error e => (emitText pending, some e)
      | .ok (ev, opened', rest') =>
        let r := lexLoop fuel rest' [] opened'
        (emitText pending ++ ev :: r.1, r.2)
    else lexLoop fuel rest (pending ++ [c]) opened

/-- The whole reader: the event stream of an input string, with the
reader error that cuts it short, if any. -/
def lex (s : Str) : List XEvent × Option LexErr := lexLoop (s.length + 1) s [] []

/-- The reader loop at its canonical fuel, with explicit pending text
and open-tag stack. -/
def lexP (s pend : Str) (o : List Str) : List XEvent × Option LexErr :=
  lexLoop (s.length + 1) s pend o

/-- Outcomes of `parse_string`: a document, a recoverable error, or a
fault (the `stack.pop().unwrap()` panic of src/read.rs). -/
inductive PResult where
  | ok : Element → PResult
  | err : Error → PResult
  | fault : PResult

/-- The attribute loop of `to_element` (src/read.rs lines 52-66): set
each decoded key/value pair, failing on a bad value. -/
def foldAttrs : Element → List (Str × Str) → Except Error Element
  | el, [] => .ok el
  | el, (k, v) :: rest =>
    match unescape v with
    | none => .error .xmlError
    | some v' => foldAttrs (el.set k ⟨v'⟩) rest

/-- `to_element` (src/read.rs): build an element from a decoded tag
name and attribute list. -/
def to_element (name : Str) (attrs : List (Str × Str)) : Except Error Element :=
  foldAttrs (Element.new name) attrs

/-- Outcome of running the parser loop over a finite event stream. -/
inductive RunOut where
  | fin : List Element → Option Element → RunOut
  | err : Error → RunOut
  | fault : RunOut

/-- The parser loop of `parse_string` (src/read.rs lines 14-44): an
explicit stack of open frames (head = innermost) and a completed-root
slot, with each transition translated from the corresponding match arm.
`fault` is the `unwrap` panic on an empty stack. -/
def runEvents : List XEvent → List Element → Option Element → RunOut
  | [], stack, result => .fin stack result
  | ev :: rest, stack, result =>
    match ev with
    | .startE nm attrs =>
      match to_element nm attrs with
      | .error e => .err e
      | .ok el => runEvents rest (el :: stack) result
    | .emptyE nm attrs =>
      match stack with
      | [] => .fault
      | parent :: st =>
        match to_element nm attrs with
        | .error e => .err e
        | .ok el => runEvents rest (parent.add el :: st) result
    | .endE _ =>
      match stack with
      | [] => .fault
      | current :: st =>
        match st with
        | [] => runEvents rest [] (some current)
        | parent :: st' => runEvents rest (parent.add current :: st') result
    | .textE s =>
      match unescape s with
      | none => .err .xmlError
      | some txt =>
        match stack with
        | [] => .fault
        | parent :: st => runEvents rest (parent.add_node (.text txt) :: st) result
    | .otherE => runEvents rest stack result

/-- Map a reader error to the library error `parse_string` returns. -/
def lexErrToError : LexErr → Error
  | .badAttr => .xmlAttrError
  | _ => .xmlError

/-- `parse_string` (src/read.rs lines 8-50): run the parser loop over
the reader's events; a reader error surfaces after the events before
it were processed; at end-of-stream return the completed root, or
`EmptyDocument` when there is none. -/
def parse_string (s : Str) : PResult :=
  let r := lex s
  match runEvents r.1 [] none with
  | .fault => .fault
  | .err e => .err e
  | .fin _ result =>
    match r.2 with
    | some le => .err (lexErrToError le)
    | none =>
      match result with
      | some e => .ok e
      | none => .err .emptyDocument

/-! ### Helper notions used by the claim statements -/

mutual
/-- Structural size of an element, for strong induction. -/
def sizeEl : Element → Nat
  | .mk _ _ kids => sizeK kids + 1
/-- Structural size of a child list. -/
def sizeK : NodeList → Nat
  | .nil => 0
  | .cons n rest => sizeN n + sizeK rest
/-- Structural size of a node. -/
def sizeN : Node → Nat
  | .text _ => 1
  | .element e => sizeEl e + 1
  | .comment _ => 1
end

mutual
/-- No `Comment` node occurs anywhere in the element. -/
def commentFreeEl : Element → Bool
  | .mk _ _ kids => commentFreeKids kids
/-- No `Comment` node occurs in the child list. -/
def commentFreeKids : NodeList → Bool
  | .nil => true
  | .cons n rest => commentFreeNode n && commentFreeKids rest
/-- No `Comment` node occurs in the node. -/
def commentFreeNode : Node → Bool
  | .text _ => true
  | .element e => commentFreeEl e
  | .comment _ => false
end

/-- The attribute pairs of an element as the reader delivers them:
sorted by key (the serializers emit them sorted), with raw text values. -/
def attrPairs (attrs : List (Str × Value)) : List (Str × Str) :=
  (sortAttrs attrs).map (fun p => (p.1, p.2.value))

mutual
/-- The canonical reader event stream of a serialized element. -/
def eventsOfEl : Element → List XEvent
  | .mk nm attrs kids =>
    match kids with
    | .nil => [.emptyE nm (attrPairs attrs)]
    | .cons n rest =>
      .startE nm (attrPairs attrs) :: (eventsOfKids (.cons n rest) ++ [.endE nm])
/-- The canonical event stream of a serialized child list. -/
def eventsOfKids : NodeList → List XEvent
  | .nil => []
  | .cons n rest => eventsOfNode n ++ eventsOfKids rest
/-- The canonical event stream of one serialized node. -/
def eventsOfNode : Node → List XEvent
  | .text s => [.textE s]
  | .element e => eventsOfEl e
  | .comment _ => []
end

mutual
/-- The tree the parser reconstructs from a serialized element: the
same tree with every attribute list sorted by key. -/
def canonEl : Element → Element
  | .mk nm attrs kids => .mk nm (sortAttrs attrs) (canonKids kids)
/-- `canonEl` on a child list. -/
def canonKids : NodeList → NodeList
  | .nil => .nil
  | .cons n rest => .cons (canonNode n) (canonKids rest)
/-- `canonEl` on a node. -/
def canonNode : Node → Node
  | .text s => .text s
  | .element e => .element (canonEl e)
  | .comment c => .comment c
end

/-- One attribute map is contained in the other. -/
def subMapB (a b : List (Str × Value)) : Bool :=
  a.all (fun p => lookupP b p.1 == some p.2)

/-- The two attribute maps hold the same key-to-value mapping. -/
def eqMapB (a b : List (Str × Value)) : Bool := subMapB a b && subMapB b a

mutual
/-- Structural equality of the round-trip claim: same tag name, same
attribute key-to-value mapping, same ordered children, recursively. -/
def equivEl : Element → Element → Bool
  | .mk n1 a1 k1, .mk n2 a2 k2 => n1 == n2 && eqMapB a1 a2 && equivKids k1 k2
/-- `equivEl` on child lists, pointwise. -/
def equivKids : NodeList → NodeList → Bool
  | .nil, .nil => true
  | .cons n1 r1, .cons n2 r2 => equivNode n1 n2 && equivKids r1 r2
  | _, _ => false
/-- `equivEl` on nodes. -/
def equivNode : Node → Node → Bool
  | .text s1, .text s2 => s1 == s2
  | .element e1, .element e2 => equivEl e1 e2
  | .comment c1, .comment c2 => c1 == c2
  | _, _ => false
end

/-- A character allowed in tag names and attribute keys. -/
def nameOkChar (c : Char) : Bool :=
  !(wsChar c || c == '<' || c == '>' || c == '/' || c == '=' ||
    c == '"' || c == '\'' || c == '&' || c == '?' || c == '!')

/-- A wellformed tag name or attribute key: nonempty, made of name
characters. -/
def nameOk (s : Str) : Bool := !s.isEmpty && s.all nameOkChar

/-- A wellformed attribute value: not both quote kinds, and free of
markup-significant characters. -/
def valueOk (v : Str) : Bool :=
  !(v.contains '"' && v.contains '\'') &&
  v.all (fun c => !(c == '<' || c == '>' || c == '&'))

/-- A wellformed text node: nonempty, carrying no leading or trailing
whitespace, and free of `<` and `&`. -/
def textOk (s : Str) : Bool :=
  !s.isEmpty && (trimS s == s) && s.all (fun c => !(c == '<' || c == '&'))

/-- Attribute keys are pairwise distinct. -/
def keysNodupB : List (Str × Value) → Bool
  | [] => true
  | (k, _) :: rest => !(rest.any (fun p => p.1 == k)) && keysNodupB rest

/-- A wellformed attribute map. -/
def attrsOk (attrs : List (Str × Value)) : Bool :=
  attrs.all (fun p => nameOk p.1 && valueOk p.2.value) && keysNodupB attrs

/-- No text child directly followed by another text child (the reader
would merge the two into one text event). -/
def noAdjText : Node → NodeList → Bool
  | .text _, .cons (.text _) _ => false
  | _, _ => true

/-- Whether a child list starts with a text node. -/
def headIsText : NodeList → Bool
  | .cons (.text _) _ => true
  | _ => false

/-- Concatenation of child lists. -/
def NodeList.append : NodeList → NodeList → NodeList
  | .nil, l => l
  | .cons n r, l => .cons n (r.append l)

/-- Append every node of a list as a child, in order. -/
def Element.addAll : Element → NodeList → Element
  | el, .nil => el
  | el, .cons n r => (el.add_node n).addAll r

mutual
/-- A tree the serializers can round-trip: wellformed names, attributes
and text, no comments, no adjacent text children. -/
def wfEl : Element → Bool
  | .mk nm attrs kids => nameOk nm && attrsOk attrs && wfKids kids
/-- `wfEl` on child lists. -/
def wfKids : NodeList → Bool
  | .nil => true
  | .cons n rest => wfNode n && noAdjText n rest && wfKids rest
/-- `wfEl` on nodes; comments are not wellformed (the parser never
reconstructs them). -/
def wfNode : Node → Bool
  | .text s => textOk s
  | .element e => wfEl e
  | .comment _ => false
end

/-- A sequence of `add_style` calls, applied in order. -/
def addStyleFold (el : Element) (calls : List (Str × Str)) : Element :=
  calls.foldl (fun e p => e.add_style p.1 p.2) el

/-- One `key:value` style clause. -/
def clauseStr (p : Str × Str) : Str := p.1 ++ ':' :: p.2

/-- The `style` text produced by a nonempty sequence of `add_style`
calls on an element with no prior `style` attribute. -/
def joinStyle : List (Str × Str) → Str
  | [] => []
  | c :: rest => clauseStr c ++ rest.flatMap (fun p => ';' :: clauseStr p)

/-- The last value added for a key by a sequence of `(key, value)`
calls, if any. -/
def lastFilterVal : List (Str × Str) → Str → Option Str
  | [], _ => none
  | p :: rest, k =>
    match lastFilterVal rest k with
    | some v => some v
    | none => if p.1 = k then some p.2 else none

/-- The `HashMap::insert` loop filling the `style_map` result. -/
def insertFold (m : List (Str × Str)) (ps : List (Str × Str)) : List (Str × Str) :=
  ps.foldl (fun acc p => insertS acc p.1 p.2) m

/-- A concrete round-trippable tree: an `svg` root (so the pretty
serializer prepends the preamble) with two attributes, an element
child and a text child. -/
def claim1Tree : Element :=
  .mk "svg".toList
    [("width".toList, ⟨"10".toList⟩), ("height".toList, ⟨"5".toList⟩)]
    (.cons (.element (.mk "g".toList [("id".toList, ⟨"a".toList⟩)]
        (.cons (.text "hi".toList) .nil)))
      (.cons (.text "tail".toList) .nil))

/-- A concrete first top-level root. -/
def claim9A : Element :=
  .mk "a".toList [("k".toList, ⟨"1".toList⟩)]
    (.cons (.text "one".toList) .nil)

/-- A concrete second top-level root. -/
def claim9B : Element :=
  .mk "b".toList [] (.cons (.element (.mk "c".toList [] (.cons (.text "x".toList) .nil))) .nil)

/-! ### Lemmas: maps -/

theorem lookupP_insertP {α : Type} (m : List (Str × α)) (k' k : Str) (v : α) :
    lookupP (insertP m k' v) k = if k' = k then some v else lookupP m k := by
  induction m with
  | nil => by_cases h : k' = k <;> simp [insertP, lookupP, h]
  | cons p m ih =>
    obtain ⟨a, b⟩ := p
    by_cases hak : a = k'
    · subst hak
      have hfil : insertP ((a, b) :: m) a v = insertP m a v := by simp [insertP]
      rw [hfil, ih]
      by_cases hk : a = k <;> simp [lookupP, hk]
    · have hfil : insertP ((a, b) :: m) k' v = (a, b) :: insertP m k' v := by
        simp [insertP, hak]
      rw [hfil]
      by_cases hk : a = k
      · subst hk
        have hkk : ¬ k' = a := fun h => hak h.symm
        simp [lookupP, hkk]
      · simp only [lookupP, if_neg hk]
        rw [ih]

theorem lookupA_set (el : Element) (k : Str) (v : Value) :
    lookupA (el.set k v).attributes k = some v := by
  show lookupP (insertP el.attributes k v) k = some v
  rw [lookupP_insertP]; simp

/-! ### Lemmas: style split/join -/

theorem splitCh_cons_ne (sep c : Char) (rest : Str) (hc : ¬ c = sep) :
    splitCh sep (c :: rest) =
      ((splitCh sep rest).headI.cons c) :: (splitCh sep rest).tail := by
  rw [splitCh, if_neg hc]
  cases h : splitCh sep rest with
  | nil =>
    exfalso
    induction rest with
    | nil => simp [splitCh] at h
    | cons x xs ihx =>
      rw [splitCh] at h
      by_cases hx : x = sep
      · simp [hx] at h
      · rw [if_neg hx] at h
        cases hxs : splitCh sep xs with
        | nil => exact ihx hxs
        | cons y ys => rw [hxs] at h; simp at h
  | cons h1 t1 => simp [List.headI]

theorem splitCh_sepFree (sep : Char) (s : Str) (h : ∀ c ∈ s, ¬ c = sep) :
    splitCh sep s = [s] := by
  induction s with
  | nil => rfl
  | cons c rest ih =>
    rw [splitCh_cons_ne sep c rest (h c (by simp)),
      ih (fun d hd => h d (by simp [hd]))]
    simp [List.headI]

theorem splitCh_append (sep : Char) (a b : Str) (h : ∀ c ∈ a, ¬ c = sep) :
    splitCh sep (a ++ sep :: b) = a :: splitCh sep b := by
  induction a with
  | nil => simp [splitCh]
  | cons c rest ih =>
    rw [List.cons_append,
      splitCh_cons_ne sep c _ (h c (by simp)),
      ih (fun d hd => h d (by simp [hd]))]
    simp [List.headI]

theorem splitOnceCh_clause (k v : Str) (h : ∀ c ∈ k, ¬ c = ':') :
    splitOnceCh ':' (k ++ ':' :: v) = some (k, v) := by
  induction k with
  | nil => simp [splitOnceCh]
  | cons c rest ih =>
    rw [List.cons_append, splitOnceCh, if_neg (h c (by simp)),
      ih (fun d hd => h d (by simp [hd]))]
    rfl

/-! ### Lemmas: add_style and style_map -/

theorem addStyle_lookup_some (el : Element) (k v s : Str)
    (h : lookupA el.attributes styleKey = some ⟨s⟩) :
    lookupA (el.add_style k v).attributes styleKey =
      some ⟨s ++ ';' :: clauseStr (k, v)⟩ := by
  rw [Element.add_style]
  show lookupA (Element.set el styleKey _).attributes styleKey = _
  rw [lookupA_set, h]
  rfl

theorem addStyle_lookup_none (el : Element) (k v : Str)
    (h : lookupA el.attributes styleKey = none) :
    lookupA (el.add_style k v).attributes styleKey = some ⟨clauseStr (k, v)⟩ := by
  rw [Element.add_style]
  show lookupA (Element.set el styleKey _).attributes styleKey = _
  rw [lookupA_set, h]
  rfl

theorem addStyleFold_lookup_some (calls : List (Str × Str)) :
    ∀ (el : Element) (s : Str),
      lookupA el.attributes styleKey = some ⟨s⟩ →
      lookupA (addStyleFold el calls).attributes styleKey =
        some ⟨s ++ calls.flatMap (fun p => ';' :: clauseStr p)⟩ := by
  induction calls with
  | nil => intro el s h; simpa [addStyleFold] using h
  | cons c cs ih =>
    intro el s h
    show lookupA (addStyleFold (el.add_style c.1 c.2) cs).attributes styleKey = _
    rw [ih _ _ (addStyle_lookup_some el c.1 c.2 s h)]
    simp

theorem addStyleFold_lookup_none (el : Element) (c : Str × Str) (cs : List (Str × Str))
    (h : lookupA el.attributes styleKey = none) :
    lookupA (addStyleFold el (c :: cs)).attributes styleKey =
      some ⟨joinStyle (c :: cs)⟩ := by
  show lookupA (addStyleFold (el.add_style c.1 c.2) cs).attributes styleKey = _
  rw [addStyleFold_lookup_some cs _ _ (addStyle_lookup_none el c.1 c.2 h)]
  rfl

theorem split_joinStyle (c : Str × Str) (cs : List (Str × Str))
    (h : ∀ p ∈ c :: cs, ∀ ch ∈ clauseStr p, ¬ ch = ';') :
    splitCh ';' (joinStyle (c :: cs)) = (c :: cs).map clauseStr := by
  induction cs generalizing c with
  | nil =>
    rw [joinStyle]
    simp only [List.flatMap_nil, List.append_nil]
    rw [splitCh_sepFree ';' _ (h c (by simp))]
    rfl
  | cons d ds ih =>
    rw [joinStyle]
    have hflat : (d :: ds).flatMap (fun p => ';' :: clauseStr p) =
        ';' :: joinStyle (d :: ds) := by
      simp [joinStyle]
    rw [hflat, splitCh_append ';' _ _ (h c (by simp)),
      ih d (fun p hp => h p (by simp at hp ⊢; tauto))]
    rfl

theorem styleFold_clauses (ps : List (Str × Str)) :
    ∀ m, (∀ p ∈ ps, ∀ ch ∈ p.1, ¬ ch = ':') →
      styleFold m (ps.map clauseStr) = .ok (insertFold m ps) := by
  induction ps with
  | nil => intro m _; rfl
  | cons p rest ih =>
    intro m h
    show styleFold m (clauseStr p :: rest.map clauseStr) = _
    rw [styleFold, clauseStr, splitOnceCh_clause p.1 p.2 (h p (by simp))]
    exact ih _ (fun q hq => h q (by simp [hq]))

theorem lookupS_insertFold (ps : List (Str × Str)) :
    ∀ (m : List (Str × Str)) (k : Str),
      lookupS (insertFold m ps) k = (lastFilterVal ps k).or (lookupS m k) := by
  induction ps with
  | nil => intro m k; simp [insertFold, lastFilterVal]
  | cons p rest ih =>
    intro m k
    show lookupS (insertFold (insertS m p.1 p.2) rest) k = _
    rw [ih]
    show _ = ((match lastFilterVal rest k with
      | some v => some v
      | none => if p.1 = k then some p.2 else none).or (lookupS m k))
    cases hlv : lastFilterVal rest k with
    | some v => rfl
    | none =>
      show (lookupS (insertS m p.1 p.2) k) = _
      show lookupP (insertP m p.1 p.2) k = _
      rw [lookupP_insertP]
      by_cases hk : p.1 = k <;> simp [hk, lookupS]

theorem styleFold_bad (cs : List Str) :
    ∀ (m : List (Str × Str)) (clause : Str), clause ∈ cs →
      splitOnceCh ':' clause = none →
      styleFold m cs = .error .malformedStyle := by
  induction cs with
  | nil => intro m clause h; exact absurd h (by simp)
  | cons h t ih =>
    intro m clause hmem hnone
    rw [styleFold]
    cases hh : splitOnceCh ':' h with
    | none => rfl
    | some p =>
      rcases List.mem_cons.mp hmem with heq | htail
      · subst heq; rw [hh] at hnone; exact absurd hnone (by simp)
      · exact ih _ clause htail hnone

/-! ### Lemmas: string order and attribute sorting -/

theorem leStr_total : ∀ a b : Str, leStr a b = true ∨ leStr b a = true := by
  intro a
  induction a with
  | nil => intro b; left; rfl
  | cons c cs ih =>
    intro b
    cases b with
    | nil => right; rfl
    | cons d ds =>
      rcases lt_trichotomy c d with h | h | h
      · left; simp [leStr, h]
      · subst h
        rcases ih ds with h2 | h2
        · left; simp [leStr, lt_irrefl, h2]
        · right; simp [leStr, lt_irrefl, h2]
      · right; simp [leStr, h]

theorem leStr_trans : ∀ a b c : Str, leStr a b = true → leStr b c = true →
    leStr a c = true := by
  intro a
  induction a with
  | nil => intro b c _ _; rfl
  | cons x xs ih =>
    intro b c hab hbc
    cases b with
    | nil => simp [leStr] at hab
    | cons y ys =>
      cases c with
      | nil => simp [leStr] at hbc
      | cons z zs =>
        rw [leStr] at hab hbc ⊢
        rcases lt_trichotomy x y with h1 | h1 | h1
        · rcases lt_trichotomy y z with h2 | h2 | h2
          · simp [lt_trans h1 h2]
          · subst h2; simp [h1]
          · simp [asymm h2, h2] at hbc
        · subst h1
          rcases lt_trichotomy x z with h2 | h2 | h2
          · simp [h2]
          · subst h2
            simp only [lt_irrefl, if_neg] at hab hbc ⊢
            simp only [if_false]
            exact ih _ _ (by simpa using hab) (by simpa using hbc)
          · simp [asymm h2, h2] at hbc
        · simp [asymm h1, h1] at hab

theorem leStr_antisymm : ∀ a b : Str, leStr a b = true → leStr b a = true →
    a = b := by
  intro a
  induction a with
  | nil =>
    intro b _ hba
    cases b with
    | nil => rfl
    | cons d ds => simp [leStr] at hba
  | cons x xs ih =>
    intro b hab hba
    cases b with
    | nil => simp [leStr] at hab
    | cons y ys =>
      rw [leStr] at hab hba
      rcases lt_trichotomy x y with h1 | h1 | h1
      · simp [asymm h1, h1] at hba
      · subst h1
        simp only [lt_irrefl, if_neg] at hab hba
        rw [ih ys (by simpa using hab) (by simpa using hba)]
      · simp [asymm h1, h1] at hab

instance : IsTotal (Str × Value) attrLe := ⟨fun a b => leStr_total a.1 b.1⟩

instance : IsTrans (Str × Value) attrLe :=
  ⟨fun a b c hab hbc => leStr_trans a.1 b.1 c.1 hab hbc⟩

theorem lookupP_eq_some_of_mem {α : Type} :
    ∀ (l : List (Str × α)) (k : Str) (v : α),
      (l.map Prod.fst).Nodup → (k, v) ∈ l → lookupP l k = some v := by
  intro l
  induction l with
  | nil => intro k v _ hm; exact absurd hm (by simp)
  | cons p rest ih =>
    intro k v hnd hm
    obtain ⟨a, b⟩ := p
    have hnd' : a ∉ rest.map Prod.fst ∧ (rest.map Prod.fst).Nodup := by
      have h0 : (a :: rest.map Prod.fst).Nodup := hnd
      exact List.nodup_cons.mp h0
    rcases List.mem_cons.mp hm with he | ht
    · have ha : a = k := (congrArg Prod.fst he).symm
      have hb : b = v := (congrArg Prod.snd he).symm
      subst ha; subst hb
      simp [lookupP]
    · by_cases hak : a = k
      · exfalso
        subst hak
        exact hnd'.1 (List.mem_map.mpr ⟨(a, v), ht, rfl⟩)
      · simp only [lookupP, if_neg hak]
        exact ih k v hnd'.2 ht

theorem mem_of_lookupP_eq_some {α : Type} :
    ∀ (l : List (Str × α)) (k : Str) (v : α),
      lookupP l k = some v → (k, v) ∈ l := by
  intro l
  induction l with
  | nil => intro k v h; simp [lookupP] at h
  | cons p rest ih =>
    intro k v h
    obtain ⟨a, b⟩ := p
    by_cases hak : a = k
    · subst hak
      have hbv : b = v := by
        rw [lookupP, if_pos rfl] at h
        exact Option.some.inj h
      subst hbv
      exact List.mem_cons_self _ _
    · rw [lookupP, if_neg hak] at h
      exact List.mem_cons_of_mem _ (ih k v h)

theorem lookupP_eq_none_of_not_mem {α : Type} :
    ∀ (l : List (Str × α)) (k : Str), k ∉ l.map Prod.fst → lookupP l k = none := by
  intro l
  induction l with
  | nil => intro k _; rfl
  | cons p rest ih =>
    intro k h
    obtain ⟨a, b⟩ := p
    have hak : ¬ a = k := by
      intro he
      subst he
      exact h (List.mem_map.mpr ⟨(a, b), List.mem_cons_self _ _, rfl⟩)
    simp only [lookupP, if_neg hak]
    exact ih k (fun hm => h (List.mem_cons_of_mem _ hm))

theorem lookupP_perm {α : Type} (l1 l2 : List (Str × α)) (hp : l1.Perm l2)
    (hnd : (l1.map Prod.fst).Nodup) (k : Str) :
    lookupP l1 k = lookupP l2 k := by
  have hnd2 : (l2.map Prod.fst).Nodup := ((hp.map Prod.fst).nodup_iff).mp hnd
  cases h1 : lookupP l1 k with
  | some v =>
    exact (lookupP_eq_some_of_mem l2 k v hnd2
      (hp.mem_iff.mp (mem_of_lookupP_eq_some l1 k v h1))).symm
  | none =>
    cases h2 : lookupP l2 k with
    | none => rfl
    | some v =>
      have := lookupP_eq_some_of_mem l1 k v hnd
        (hp.symm.mem_iff.mp (mem_of_lookupP_eq_some l2 k v h2))
      rw [h1] at this
      exact absurd this (by simp)

theorem sortedAttrs_unique :
    ∀ l1 l2 : List (Str × Value),
      List.Sorted attrLe l1 → List.Sorted attrLe l2 →
      (l1.map Prod.fst).Nodup → (l2.map Prod.fst).Nodup →
      (∀ k, lookupP l1 k = lookupP l2 k) → l1 = l2 := by
  intro l1
  induction l1 with
  | nil =>
    intro l2 _ _ _ _ hl
    cases l2 with
    | nil => rfl
    | cons q t =>
      obtain ⟨a, b⟩ := q
      have := hl a
      simp [lookupP] at this
  | cons p t1 ih =>
    intro l2 hs1 hs2 hnd1 hnd2 hl
    obtain ⟨k1, v1⟩ := p
    cases l2 with
    | nil =>
      have := hl k1
      simp [lookupP] at this
    | cons q t2 =>
      obtain ⟨k2, v2⟩ := q
      have hm1 : ((k1, v1) : Str × Value) ∈ (k2, v2) :: t2 := by
        apply mem_of_lookupP_eq_some _ _ _
        rw [← hl k1]
        simp [lookupP]
      have hm2 : ((k2, v2) : Str × Value) ∈ (k1, v1) :: t1 := by
        apply mem_of_lookupP_eq_some _ _ _
        rw [hl k2]
        simp [lookupP]
      have hnd1' : k1 ∉ t1.map Prod.fst ∧ (t1.map Prod.fst).Nodup := by
        have h0 : (k1 :: t1.map Prod.fst).Nodup := hnd1
        exact List.nodup_cons.mp h0
      have hnd2' : k2 ∉ t2.map Prod.fst ∧ (t2.map Prod.fst).Nodup := by
        have h0 : (k2 :: t2.map Prod.fst).Nodup := hnd2
        exact List.nodup_cons.mp h0
      by_cases hk : k1 = k2
      · subst hk
        have hv : v1 = v2 := by
          have h1 := hl k1
          simp [lookupP] at h1
          exact h1
        subst hv
        have htl : ∀ k, lookupP t1 k = lookupP t2 k := by
          intro k
          by_cases hkk : k1 = k
          · subst hkk
            rw [lookupP_eq_none_of_not_mem t1 k1 hnd1'.1,
              lookupP_eq_none_of_not_mem t2 k1 hnd2'.1]
          · have := hl k
            simpa [lookupP, hkk] using this
        rw [ih t2 (List.sorted_cons.mp hs1).2 (List.sorted_cons.mp hs2).2
          hnd1'.2 hnd2'.2 htl]
      · exfalso
        have hm1t : ((k1, v1) : Str × Value) ∈ t2 := by
          rcases List.mem_cons.mp hm1 with he | ht
          · exact absurd (congrArg Prod.fst he) hk
          · exact ht
        have hm2t : ((k2, v2) : Str × Value) ∈ t1 := by
          rcases List.mem_cons.mp hm2 with he | ht
          · exact absurd (congrArg Prod.fst he).symm hk
          · exact ht
        have h21 : attrLe (k2, v2) (k1, v1) := (List.sorted_cons.mp hs2).1 _ hm1t
        have h12 : attrLe (k1, v1) (k2, v2) := (List.sorted_cons.mp hs1).1 _ hm2t
        exact hk (leStr_antisymm k1 k2 h12 h21)

theorem sortAttrs_sorted (l : List (Str × Value)) :
    List.Sorted attrLe (sortAttrs l) :=
  List.sorted_insertionSort attrLe l

theorem sortAttrs_perm (l : List (Str × Value)) : (sortAttrs l).Perm l :=
  List.perm_insertionSort attrLe l

theorem sortAttrs_eq_of_perm (p1 p2 : List (Str × Value)) (hp : p1.Perm p2)
    (hnd : (p1.map Prod.fst).Nodup) : sortAttrs p1 = sortAttrs p2 := by
  have hnd2 : (p2.map Prod.fst).Nodup := ((hp.map Prod.fst).nodup_iff).mp hnd
  have hnds1 : ((sortAttrs p1).map Prod.fst).Nodup :=
    (((sortAttrs_perm p1).map Prod.fst).nodup_iff).mpr hnd
  have hnds2 : ((sortAttrs p2).map Prod.fst).Nodup :=
    (((sortAttrs_perm p2).map Prod.fst).nodup_iff).mpr hnd2
  apply sortedAttrs_unique _ _ (sortAttrs_sorted p1) (sortAttrs_sorted p2) hnds1 hnds2
  intro k
  rw [lookupP_perm _ _ (sortAttrs_perm p1) hnds1 k,
    lookupP_perm _ _ hp hnd k,
    ← lookupP_perm _ _ (sortAttrs_perm p2) hnds2 k]

/-! ### Claims C6, C7, C10: the style API -/

/-- C6: on an element with no style attribute, `add_style("a","1")` then
`add_style("b","2")` makes the bare text of the `style` attribute exactly
`a:1;b:2`, and `style_map()` then returns Ok of the mapping
`{a -> 1, b -> 2}`. -/
theorem claim_C6 :
    (((Element.new "foo".toList).add_style "a".toList "1".toList).add_style
        "b".toList "2".toList).get styleKey = some "a:1;b:2".toList ∧
    (((Element.new "foo".toList).add_style "a".toList "1".toList).add_style
        "b".toList "2".toList).style_map =
      .ok [("a".toList, "1".toList), ("b".toList, "2".toList)] := by
  exact ⟨rfl, rfl⟩

/-- C7: `style_map()` returns Ok of the empty mapping when the `style`
attribute is absent, and returns `MalformedStyle` as soon as any
`;`-separated clause of the style text contains no `:` separator. -/
theorem claim_C7 :
    (∀ el : Element, lookupA el.attributes styleKey = none → el.style_map = .ok []) ∧
    (∀ (el : Element) (v : Value) (clause : Str),
      lookupA el.attributes styleKey = some v →
      clause ∈ splitCh ';' v.to_string_bare →
      splitOnceCh ':' clause = none →
      el.style_map = .error .malformedStyle) := by
  constructor
  · intro el h
    simp only [Element.style_map, h]
  · intro el v clause hv hmem hnone
    simp only [Element.style_map, hv]
    exact styleFold_bad _ [] clause hmem hnone

/-- Witness for C7 at concrete elements: one without a `style`
attribute, one with the colon-free style text `broken`. -/
theorem claim_C7_witness :
    (Element.new "a".toList).style_map = .ok [] ∧
    ((Element.new "a".toList).set styleKey ⟨"broken".toList⟩).style_map =
      .error .malformedStyle := by
  constructor
  · exact claim_C7.1 _ rfl
  · exact claim_C7.2 _ ⟨"broken".toList⟩ "broken".toList rfl (by decide) (by decide)

/-- C10: for any sequence of `add_style(key, value)` calls on an element
with no prior `style` attribute, if every key is free of `;` and `:` and
every value is free of `;`, then `style_map()` returns Ok of exactly the
mapping sending each distinct key to its last added value. -/
theorem claim_C10 (el : Element) (calls : List (Str × Str))
    (hstyle : lookupA el.attributes styleKey = none)
    (hok : ∀ p ∈ calls,
      (∀ ch ∈ p.1, ¬ ch = ';' ∧ ¬ ch = ':') ∧ (∀ ch ∈ p.2, ¬ ch = ';')) :
    ∃ m, (addStyleFold el calls).style_map = .ok m ∧
      ∀ k, lookupS m k = lastFilterVal calls k := by
  cases calls with
  | nil =>
    refine ⟨[], ?_, fun k => rfl⟩
    show Element.style_map el = _
    simp only [Element.style_map, hstyle]
  | cons c cs =>
    have hlook := addStyleFold_lookup_none el c cs hstyle
    refine ⟨insertFold [] (c :: cs), ?_, ?_⟩
    · simp only [Element.style_map, hlook, Value.to_string_bare]
      rw [split_joinStyle c cs ?hcl]
      · exact styleFold_clauses (c :: cs) []
          (fun p hp ch hch => ((hok p hp).1 ch hch).2)
      case hcl =>
        intro p hp ch hch
        rcases (by simpa [clauseStr] using hch : ch ∈ p.1 ∨ ch = ':' ∨ ch ∈ p.2) with
          h1 | h2 | h3
        · exact ((hok p hp).1 ch h1).1
        · subst h2; decide
        · exact (hok p hp).2 ch h3
    · intro k
      rw [lookupS_insertFold]
      cases lastFilterVal (c :: cs) k <;> rfl

/-- Witness for C10: three calls with a repeated key `a`; the recovered
mapping sends `a` to its last value `3` and `b` to `2`. -/
theorem claim_C10_witness :
    ∃ m, (addStyleFold (Element.new "e".toList)
        [("a".toList, "1".toList), ("b".toList, "2".toList),
          ("a".toList, "3".toList)]).style_map = .ok m ∧
      ∀ k, lookupS m k =
        lastFilterVal [("a".toList, "1".toList), ("b".toList, "2".toList),
          ("a".toList, "3".toList)] k :=
  claim_C10 _ _ rfl (by decide)

/-! ### Claim C4: value quoting -/

/-- C4: the attribute-emission rendering of a `Value` wraps the stored
text in double quotes when the text contains no double quote, and in
single quotes when it does; the text itself is emitted unchanged. -/
theorem claim_C4 (v : Value) :
    (v.value.contains '"' = false →
      Value.display v = '"' :: (v.value ++ ['"'])) ∧
    (v.value.contains '"' = true →
      Value.display v = '\'' :: (v.value ++ ['\''])) := by
  constructor <;> intro h <;> rw [Value.display, h] <;> simp

/-- Witness for C4 at two concrete values, one without and one with a
double quote. -/
theorem claim_C4_witness :
    ("ab".toList : Str).contains '"' = false ∧
    Value.display ⟨"ab".toList⟩ = '"' :: ("ab".toList ++ ['"']) ∧
    ("a\"b".toList : Str).contains '"' = true ∧
    Value.display ⟨"a\"b".toList⟩ = '\'' :: ("a\"b".toList ++ ['\'']) :=
  ⟨by decide, (claim_C4 ⟨"ab".toList⟩).1 (by decide),
    by decide, (claim_C4 ⟨"a\"b".toList⟩).2 (by decide)⟩

/-! ### Claim C5: attribute order independence -/

/-- C5: two elements with equal tag and children whose attribute maps
hold the same key/value pairs in different orders serialize to
byte-identical output, in both the compact and the pretty mode, because
attributes are sorted by key at the serialization boundary. -/
theorem claim_C5 (nm : Str) (kids : NodeList) (p1 p2 : List (Str × Value))
    (hperm : p1.Perm p2) (hnd : (p1.map Prod.fst).Nodup) :
    Element.toStr (.mk nm p1 kids) = Element.toStr (.mk nm p2 kids) ∧
    Element.to_pretty_string (.mk nm p1 kids) =
      Element.to_pretty_string (.mk nm p2 kids) := by
  have hs : sortAttrs p1 = sortAttrs p2 := sortAttrs_eq_of_perm p1 p2 hperm hnd
  constructor
  · cases kids with
    | nil => rw [Element.toStr, Element.toStr, hs]
    | cons n rest => rw [Element.toStr, Element.toStr, hs]
  · show Element.pretty_fmt_internal (.mk nm p1 kids)
        (if nm == "svg".toList then preamble else []) 0 =
      Element.pretty_fmt_internal (.mk nm p2 kids)
        (if nm == "svg".toList then preamble else []) 0
    cases kids with
    | nil => rw [Element.pretty_fmt_internal, Element.pretty_fmt_internal, hs]
    | cons n rest => rw [Element.pretty_fmt_internal, Element.pretty_fmt_internal, hs]

/-- Witness for C5: the two-attribute maps `{b:2, a:1}` and `{a:1, b:2}`
in swapped insertion order. -/
theorem claim_C5_witness :
    Element.toStr (.mk "e".toList
        [("b".toList, ⟨"2".toList⟩), ("a".toList, ⟨"1".toList⟩)] .nil) =
      Element.toStr (.mk "e".toList
        [("a".toList, ⟨"1".toList⟩), ("b".toList, ⟨"2".toList⟩)] .nil) ∧
    Element.to_pretty_string (.mk "e".toList
        [("b".toList, ⟨"2".toList⟩), ("a".toList, ⟨"1".toList⟩)] .nil) =
      Element.to_pretty_string (.mk "e".toList
        [("a".toList, ⟨"1".toList⟩), ("b".toList, ⟨"2".toList⟩)] .nil) :=
  claim_C5 "e".toList .nil _ _ (List.Perm.swap _ _ _) (by decide)

/-! ### Lemmas: spans, trimming, unescaping -/

theorem dropWhile_prepend (p : Char → Bool) :
    ∀ (w s : Str), (∀ c ∈ w, p c = true) → (w ++ s).dropWhile p = s.dropWhile p := by
  intro w
  induction w with
  | nil => intro s _; rfl
  | cons c cs ih =>
    intro s h
    rw [List.cons_append, List.dropWhile_cons, if_pos (h c (by simp))]
    exact ih s (fun d hd => h d (by simp [hd]))

theorem takeWhile_split (p : Char → Bool) :
    ∀ (s : Str) (x : Char) (r : Str), (∀ c ∈ s, p c = true) → p x = false →
      (s ++ x :: r).takeWhile p = s ∧ (s ++ x :: r).dropWhile p = x :: r := by
  intro s
  induction s with
  | nil =>
    intro x r _ hx
    constructor
    · rw [List.nil_append, List.takeWhile_cons, if_neg (by simp [hx])]
    · rw [List.nil_append, List.dropWhile_cons, if_neg (by simp [hx])]
  | cons c cs ih =>
    intro x r h hx
    have hc : p c = true := h c (by simp)
    obtain ⟨h1, h2⟩ := ih x r (fun d hd => h d (by simp [hd])) hx
    constructor
    · rw [List.cons_append, List.takeWhile_cons, if_pos hc, h1]
    · rw [List.cons_append, List.dropWhile_cons, if_pos hc, h2]

theorem dropWhile_all (p : Char → Bool) :
    ∀ s : Str, (∀ c ∈ s, p c = true) → s.dropWhile p = [] := by
  intro s
  induction s with
  | nil => intro _; rfl
  | cons c cs ih =>
    intro h
    rw [List.dropWhile_cons, if_pos (h c (by simp))]
    exact ih (fun d hd => h d (by simp [hd]))

theorem dropWhile_append_cases (p : Char → Bool) (s w : Str) :
    (s ++ w).dropWhile p =
      if s.dropWhile p = [] then w.dropWhile p else s.dropWhile p ++ w := by
  induction s with
  | nil => simp
  | cons c cs ih =>
    by_cases hc : p c = true
    · rw [List.cons_append, List.dropWhile_cons, if_pos hc,
        List.dropWhile_cons, if_pos hc, ih]
    · have hc' : p c = false := by revert hc; cases p c <;> simp
      rw [List.cons_append, List.dropWhile_cons, if_neg (by simp [hc']),
        List.dropWhile_cons, if_neg (by simp [hc'])]
      simp [hc']

theorem trimL_ws_prepend (w s : Str) (hw : ∀ c ∈ w, wsChar c = true) :
    trimL (w ++ s) = trimL s := by
  rw [trimL, trimL]
  exact dropWhile_prepend wsChar w s hw

theorem trimR_ws_append (s w : Str) (hw : ∀ c ∈ w, wsChar c = true) :
    trimR (s ++ w) = trimR s := by
  rw [trimR, trimR, List.reverse_append]
  rw [dropWhile_prepend wsChar w.reverse s.reverse
    (fun c hc => hw c (List.mem_reverse.mp hc))]

theorem trimS_ws_nil (w : Str) (hw : ∀ c ∈ w, wsChar c = true) : trimS w = [] := by
  rw [trimS, trimL, dropWhile_all wsChar w hw]
  rfl

theorem trimS_append_ws (s w : Str) (hw : ∀ c ∈ w, wsChar c = true) :
    trimS (s ++ w) = trimS s := by
  rw [trimS, trimS, trimL, trimL, dropWhile_append_cases]
  by_cases hd : s.dropWhile wsChar = []
  · rw [if_pos hd, hd, dropWhile_all wsChar w hw]
  · rw [if_neg hd]
    exact trimR_ws_append _ w hw

theorem trimS_wrap (w1 s w2 : Str)
    (h1 : ∀ c ∈ w1, wsChar c = true) (h2 : ∀ c ∈ w2, wsChar c = true) :
    trimS (w1 ++ s ++ w2) = trimS s := by
  rw [List.append_assoc, trimS, trimL_ws_prepend w1 (s ++ w2) h1]
  rw [show trimR (trimL (s ++ w2)) = trimS (s ++ w2) from rfl]
  exact trimS_append_ws s w2 h2

theorem textOk_spec (s : Str) (h : textOk s = true) :
    trimS s = s ∧ s ≠ [] ∧ ∀ c ∈ s, ¬ c = '<' ∧ ¬ c = '&' := by
  rw [textOk] at h
  simp only [Bool.and_eq_true, List.all_eq_true] at h
  obtain ⟨⟨hne, htr⟩, hall⟩ := h
  refine ⟨eq_of_beq htr, ?_, ?_⟩
  · intro he
    rw [he] at hne
    simp at hne
  · intro c hc
    have := hall c hc
    simp only [Bool.or_eq_true, Bool.not_eq_true'] at this
    constructor
    · intro he; subst he; simp_all
    · intro he; subst he; simp_all

theorem not_mem_of_contains_false (l : Str) (a : Char)
    (h : l.contains a = false) : ∀ c ∈ l, ¬ c = a := by
  intro c hc he
  subst he
  have : l.contains c = true := List.elem_eq_true_of_mem hc
  rw [h] at this
  exact absurd this (by simp)

theorem unescapeGo_noAmp :
    ∀ (s : Str) (fuel : Nat), s.length < fuel → (∀ c ∈ s, ¬ c = '&') →
      unescapeGo fuel s = some s := by
  intro s
  induction s with
  | nil =>
    intro fuel hf _
    cases fuel with
    | zero => omega
    | succ f => rfl
  | cons c cs ih =>
    intro fuel hf h
    cases fuel with
    | zero => omega
    | succ f =>
      rw [unescapeGo]
      have hc : (c == '&') = false := by
        simp only [beq_eq_false_iff_ne, ne_eq]
        exact h c (by simp)
      rw [hc]
      simp only [Bool.false_eq_true, if_false]
      rw [ih f (by simp at hf ⊢; omega) (fun d hd => h d (by simp [hd]))]
      rfl

theorem unescape_noAmp (s : Str) (h : ∀ c ∈ s, ¬ c = '&') :
    unescape s = some s :=
  unescapeGo_noAmp s (s.length + 1) (by omega) h

/-! ### Lemmas: reader fuel and stepping -/

theorem dropWhile_length_le (p : Char → Bool) :
    ∀ l : Str, (l.dropWhile p).length ≤ l.length := by
  intro l
  induction l with
  | nil => simp
  | cons c cs ih =>
    rw [List.dropWhile_cons]
    by_cases hc : p c = true
    · rw [if_pos hc]; simp; omega
    · rw [if_neg (by simp [hc])]

theorem lexAttrs_lt :
    ∀ (fuel : Nat) (s : Str) (out : List (Str × Str) × Bool × Str),
      lexAttrs fuel s = .ok out → out.2.2.length < s.length := by
  intro fuel
  induction fuel with
  | zero => intro s out h; exact absurd h (by simp [lexAttrs])
  | succ f ih =>
    intro s out h
    rw [lexAttrs] at h
    split at h
    next => exact absurd h (by simp)
    next c r1 hd =>
      have hr1 : r1.length < s.length := by
        have := dropWhile_length_le wsChar s
        rw [hd] at this
        simp at this
        omega
      split at h
      next =>
        have hout := Except.ok.inj h
        subst hout
        exact hr1
      next =>
        split at h
        next =>
          split at h
          next => exact absurd h (by simp)
          next c2 r2 =>
            split at h
            next =>
              have hout := Except.ok.inj h
              subst hout
              show r2.length < s.length
              simp at hr1
              omega
            next => exact absurd h (by simp)
        next =>
          split at h
          next =>
            split at h
            next => exact absurd h (by simp)
            next c3 r3 hd2 =>
              split at h
              next =>
                split at h
                next => exact absurd h (by simp)
                next q r4 =>
                  split at h
                  next =>
                    split at h
                    next => exact absurd h (by simp)
                    next c5 r5 hd3 =>
                      cases hrec : lexAttrs f r5 with
                      | error e =>
                        rw [hrec] at h
                        exact absurd h (by simp [Except.map])
                      | ok out' =>
                        rw [hrec] at h
                        have hout := Except.ok.inj h
                        subst hout
                        show out'.2.2.length < s.length
                        have hih := ih r5 out' hrec
                        have hb2 := dropWhile_length_le attrKeyChar (c :: r1)
                        rw [hd2] at hb2
                        have hb3 := dropWhile_length_le (fun ch => !(ch == q)) r4
                        rw [hd3] at hb3
                        simp at hb2 hb3
                        omega
                  next => exact absurd h (by simp)
              next => exact absurd h (by simp)
          next => exact absurd h (by simp)

theorem lexTag_lt (s : Str) (opened : List Str)
    (ev : XEvent) (o' : List Str) (r : Str)
    (h : lexTag s opened = .ok (ev, o', r)) : r.length < s.length := by
  cases s with
  | nil => exact absurd h (by simp [lexTag])
  | cons c r1 =>
    rw [lexTag] at h
    split at h
    next =>
      split at h
      next => exact absurd h (by simp)
      next c2 r2 hd =>
        have hr : r2 = r := congrArg (fun x => x.2.2) (Except.ok.inj h)
        subst hr
        have := dropWhile_length_le (fun ch => !(ch == '>')) r1
        rw [hd] at this
        simp at this ⊢
        omega
    next =>
      split at h
      next =>
        split at h
        next => exact absurd h (by simp)
        next c2 r2 hd =>
          split at h
          next =>
            split at h
            next => exact absurd h (by simp)
            next o os =>
              split at h
              next =>
                have hr : r2 = r := congrArg (fun x => x.2.2) (Except.ok.inj h)
                subst hr
                have ha := dropWhile_length_le wsChar (r1.dropWhile endNameChar)
                have hb := dropWhile_length_le endNameChar r1
                rw [hd] at ha
                simp at ha ⊢
                omega
              next => exact absurd h (by simp)
          next => exact absurd h (by simp)
      next =>
        split at h
        next =>
          split at h
          next e heq => exact absurd h (by simp)
          next attrs rest' heq =>
            have hl := lexAttrs_lt _ _ _ heq
            have hdw := dropWhile_length_le tagNameChar (c :: r1)
            have hr : rest' = r := congrArg (fun x => x.2.2) (Except.ok.inj h)
            subst hr
            simp at hl hdw ⊢
            omega
          next attrs rest' heq =>
            have hl := lexAttrs_lt _ _ _ heq
            have hdw := dropWhile_length_le tagNameChar (c :: r1)
            have hr : rest' = r := congrArg (fun x => x.2.2) (Except.ok.inj h)
            subst hr
            simp at hl hdw ⊢
            omega
        next => exact absurd h (by simp)

theorem lexLoop_cons (f : Nat) (c : Char) (rest p : Str) (o : List Str) :
    lexLoop (f + 1) (c :: rest) p o =
      if c = '<' then
        match lexTag rest o with
        | .error e => (emitText p, some e)
        | .ok (ev, opened', rest') =>
          (emitText p ++ ev :: (lexLoop f rest' [] opened').1,
            (lexLoop f rest' [] opened').2)
      else lexLoop f rest (p ++ [c]) o := rfl

theorem lexLoop_fuel :
    ∀ (n : Nat) (s : Str), s.length ≤ n →
      ∀ (f1 f2 : Nat) (p : Str) (o : List Str),
        s.length < f1 → s.length < f2 → lexLoop f1 s p o = lexLoop f2 s p o := by
  intro n
  induction n with
  | zero =>
    intro s hs f1 f2 p o h1 h2
    have hnil : s = [] := List.length_eq_zero.mp (by omega)
    subst hnil
    cases f1 with
    | zero => omega
    | succ g1 =>
      cases f2 with
      | zero => omega
      | succ g2 => rfl
  | succ n ih =>
    intro s hs f1 f2 p o h1 h2
    cases s with
    | nil =>
      cases f1 with
      | zero => omega
      | succ g1 =>
        cases f2 with
        | zero => omega
        | succ g2 => rfl
    | cons c rest =>
      cases f1 with
      | zero => omega
      | succ g1 =>
        cases f2 with
        | zero => omega
        | succ g2 =>
          rw [lexLoop_cons, lexLoop_cons]
          by_cases hc : c = '<'
          · rw [if_pos hc, if_pos hc]
            cases ht : lexTag rest o with
            | error e => rfl
            | ok x =>
              obtain ⟨ev, o2, r'⟩ := x
              have hlt := lexTag_lt rest o ev o2 r' ht
              have hre : lexLoop g1 r' [] o2 = lexLoop g2 r' [] o2 := by
                refine ih r' ?_ g1 g2 _ _ ?_ ?_ <;> simp at hs h1 h2 <;> omega
              simp only [hre]
          · rw [if_neg hc, if_neg hc]
            refine ih rest ?_ g1 g2 _ _ ?_ ?_ <;> simp at hs h1 h2 <;> omega

theorem lexLoop_eq_lexP (f : Nat) (s p : Str) (o : List Str) (h : s.length < f) :
    lexLoop f s p o = lexP s p o :=
  lexLoop_fuel s.length s le_rfl f (s.length + 1) p o h (by omega)

theorem lexP_nil (p : Str) (o : List Str) : lexP [] p o = (emitText p, none) := rfl

theorem lexP_cons_txt (c : Char) (rest p : Str) (o : List Str) (hc : ¬ c = '<') :
    lexP (c :: rest) p o = lexP rest (p ++ [c]) o := by
  show lexLoop (rest.length + 1 + 1) (c :: rest) p o = _
  rw [lexLoop_cons, if_neg hc]
  rfl

theorem lexP_text_run :
    ∀ (s rest p : Str) (o : List Str), (∀ c ∈ s, ¬ c = '<') →
      lexP (s ++ rest) p o = lexP rest (p ++ s) o := by
  intro s
  induction s with
  | nil => intro rest p o _; simp
  | cons c cs ih =>
    intro rest p o h
    rw [List.cons_append, lexP_cons_txt c (cs ++ rest) p o (h c (by simp)),
      ih rest (p ++ [c]) o (fun d hd => h d (by simp [hd]))]
    simp

theorem lexP_lt_pending (r p : Str) (o : List Str) :
    lexP ('<' :: r) p o =
      (emitText p ++ (lexP ('<' :: r) [] o).1, (lexP ('<' :: r) [] o).2) := by
  show lexLoop (r.length + 1 + 1) ('<' :: r) p o =
    (emitText p ++ (lexLoop (r.length + 1 + 1) ('<' :: r) [] o).1,
      (lexLoop (r.length + 1 + 1) ('<' :: r) [] o).2)
  rw [lexLoop_cons, lexLoop_cons, if_pos rfl, if_pos rfl]
  cases ht : lexTag r o with
  | error e => simp [emitText, trimS, trimL, trimR]
  | ok x =>
    obtain ⟨ev, o2, r2⟩ := x
    simp [emitText, trimS, trimL, trimR]

theorem lexP_tag (r p : Str) (o : List Str) (ev : XEvent) (o2 : List Str) (r2 : Str)
    (ht : lexTag r o = .ok (ev, o2, r2)) :
    lexP ('<' :: r) p o =
      (emitText p ++ ev :: (lexP r2 [] o2).1, (lexP r2 [] o2).2) := by
  show lexLoop (r.length + 1 + 1) ('<' :: r) p o = _
  rw [lexLoop_cons, if_pos rfl, ht]
  simp only [lexLoop_eq_lexP (r.length + 1) r2 [] o2
    (by have := lexTag_lt r o ev o2 r2 ht; omega)]

theorem lexP_tag_err (r p : Str) (o : List Str) (e : LexErr)
    (ht : lexTag r o = .error e) :
    lexP ('<' :: r) p o = (emitText p, some e) := by
  show lexLoop (r.length + 1 + 1) ('<' :: r) p o = _
  rw [lexLoop_cons, if_pos rfl, ht]

/-! ### Lemmas: wellformed characters -/

theorem nameOkChar_spec (c : Char) (h : nameOkChar c = true) :
    wsChar c = false ∧ tagNameChar c = true ∧ attrKeyChar c = true ∧
    endNameChar c = true ∧ ¬ c = '>' ∧ ¬ c = '/' ∧ ¬ c = '<' ∧ ¬ c = '?' ∧
    ¬ c = '!' ∧ ¬ c = '=' ∧ ¬ c = '&' := by
  rw [nameOkChar, Bool.not_eq_true'] at h
  simp only [Bool.or_eq_false_iff, beq_eq_false_iff_ne, ne_eq] at h
  obtain ⟨⟨⟨⟨⟨⟨⟨⟨⟨hws, hlt⟩, hgt⟩, hsl⟩, heq⟩, hdq⟩, hsq⟩, hamp⟩, hq⟩, hb⟩ := h
  refine ⟨hws, ?_, ?_, ?_, hgt, hsl, hlt, hq, hb, heq, hamp⟩
  · simp [tagNameChar, hws, hsl, hgt]
  · simp [attrKeyChar, hws, heq, hgt, hsl, hlt, hdq, hsq]
  · simp [endNameChar, hws, hgt]

theorem nameOk_spec (s : Str) (h : nameOk s = true) :
    s ≠ [] ∧ ∀ c ∈ s, nameOkChar c = true := by
  rw [nameOk] at h
  simp only [Bool.and_eq_true, List.all_eq_true] at h
  refine ⟨?_, h.2⟩
  intro he
  rw [he] at h
  simp at h

theorem valueOk_spec (v : Str) (h : valueOk v = true) :
    (v.contains '"' = true → v.contains '\'' = false) ∧
    (∀ c ∈ v, ¬ c = '<' ∧ ¬ c = '>' ∧ ¬ c = '&') := by
  rw [valueOk] at h
  simp only [Bool.and_eq_true, List.all_eq_true, Bool.not_eq_true',
    Bool.and_eq_false_iff] at h
  constructor
  · intro hdq
    rcases h.1 with h1 | h1
    · rw [hdq] at h1; exact absurd h1 (by simp)
    · exact h1
  · intro c hc
    have := h.2 c hc
    simp only [Bool.or_eq_false_iff, beq_eq_false_iff_ne, ne_eq] at this
    exact ⟨this.1.1, this.1.2, this.2⟩

theorem keysNodupB_iff :
    ∀ l : List (Str × Value), keysNodupB l = true ↔ (l.map Prod.fst).Nodup := by
  intro l
  induction l with
  | nil => simp [keysNodupB]
  | cons p rest ih =>
    obtain ⟨k, v⟩ := p
    rw [keysNodupB]
    simp only [Bool.and_eq_true, Bool.not_eq_true', List.map_cons, List.nodup_cons,
      ih, List.mem_map]
    constructor
    · rintro ⟨hna, hnd⟩
      refine ⟨?_, hnd⟩
      rintro ⟨q, hq, hqe⟩
      have : rest.any (fun p => p.1 == k) = true :=
        List.any_eq_true.mpr ⟨q, hq, by simp [hqe]⟩
      rw [hna] at this
      exact absurd this (by simp)
    · rintro ⟨hna, hnd⟩
      refine ⟨?_, hnd⟩
      rw [Bool.eq_false_iff]
      intro hany
      obtain ⟨q, hq, hqe⟩ := List.any_eq_true.mp hany
      exact hna ⟨q, hq, by simpa using hqe⟩

theorem attrsOk_spec (attrs : List (Str × Value)) (h : attrsOk attrs = true) :
    (∀ p ∈ attrs, nameOk p.1 = true ∧ valueOk p.2.value = true) ∧
    (attrs.map Prod.fst).Nodup := by
  rw [attrsOk] at h
  simp only [Bool.and_eq_true, List.all_eq_true] at h
  exact ⟨fun p hp => by simpa using h.1 p hp, (keysNodupB_iff attrs).mp h.2⟩

theorem attrsOk_sort (attrs : List (Str × Value)) (h : attrsOk attrs = true) :
    (∀ p ∈ sortAttrs attrs, nameOk p.1 = true ∧ valueOk p.2.value = true) ∧
    ((sortAttrs attrs).map Prod.fst).Nodup := by
  obtain ⟨hall, hnd⟩ := attrsOk_spec attrs h
  constructor
  · intro p hp
    exact hall p ((sortAttrs_perm attrs).mem_iff.mp hp)
  · exact (((sortAttrs_perm attrs).map Prod.fst).nodup_iff).mpr hnd

/-! ### Lemmas: the reader inverts the serializers (tag level) -/

theorem lexAttrs_render :
    ∀ (ps : List (Str × Value)) (fuel : Nat) (close rest : Str) (flag : Bool),
      ps.length < fuel →
      (close = ' ' :: '/' :: '>' :: rest ∧ flag = true ∨
        close = '>' :: rest ∧ flag = false) →
      (∀ p ∈ ps, nameOk p.1 = true ∧ valueOk p.2.value = true) →
      lexAttrs fuel (attrsRender ps ++ close) =
        .ok (ps.map (fun p => (p.1, p.2.value)), flag, rest) := by
  intro ps
  induction ps with
  | nil =>
    intro fuel close rest flag hf hclose _
    cases fuel with
    | zero => omega
    | succ f =>
      rcases hclose with ⟨hc, hfl⟩ | ⟨hc, hfl⟩ <;> subst hc <;> subst hfl
      · have hd : ((' ' :: '/' :: '>' :: rest).dropWhile wsChar) =
            '/' :: '>' :: rest := by
          rw [List.dropWhile_cons, if_pos (by decide), List.dropWhile_cons,
            if_neg (by decide)]
        rw [show attrsRender [] ++ ' ' :: '/' :: '>' :: rest =
          ' ' :: '/' :: '>' :: rest from rfl]
        simp [lexAttrs, hd]
      · have hd : (('>' :: rest).dropWhile wsChar) = '>' :: rest := by
          rw [List.dropWhile_cons, if_neg (by decide)]
        rw [show attrsRender [] ++ '>' :: rest = '>' :: rest from rfl]
        simp [lexAttrs, hd]
  | cons p ps' ih =>
    intro fuel close rest flag hf hclose hps
    obtain ⟨k, v⟩ := p
    cases fuel with
    | zero => omega
    | succ f =>
      obtain ⟨hknm, hvok⟩ := hps (k, v) (by simp)
      obtain ⟨hkne, hkall⟩ := nameOk_spec k hknm
      cases hk : k with
      | nil => exact absurd hk hkne
      | cons kc ktl =>
        subst hk
        have hkc := nameOkChar_spec kc (hkall kc (by simp))
        -- the input shape
        have hshape : attrsRender ((kc :: ktl, v) :: ps') ++ close =
            ' ' :: ((kc :: ktl) ++ '=' :: (v.display ++ (attrsRender ps' ++ close))) := by
          rw [attrsRender]
          simp [List.append_assoc]
        rw [hshape]
        -- whitespace skip stops at kc
        have hd1 : ((' ' :: ((kc :: ktl) ++ '=' ::
            (v.display ++ (attrsRender ps' ++ close)))).dropWhile wsChar) =
            (kc :: ktl) ++ '=' :: (v.display ++ (attrsRender ps' ++ close)) := by
          rw [List.dropWhile_cons, if_pos (by decide), List.cons_append,
            List.dropWhile_cons, if_neg (by simp [hkc.1])]
        -- key scan
        obtain ⟨htk, hdk⟩ := takeWhile_split attrKeyChar (kc :: ktl)
          '=' (v.display ++ (attrsRender ps' ++ close))
          (fun c hc => (nameOkChar_spec c (hkall c hc)).2.2.1) (by decide)
        obtain ⟨hws, htag, hkey, hend, hgt, hsl, hlt, hq, hb, heqc, hamp⟩ := hkc
        rw [lexAttrs, hd1]
        simp only [List.cons_append] at htk hdk ⊢
        rw [if_neg hgt, if_neg hsl, if_pos hkey, hdk]
        simp only [htk]
        by_cases hdq : v.value.contains '"' = true
        · have hsq' : v.value.contains '\'' = false := (valueOk_spec _ hvok).1 hdq
          have hdisp : v.display = '\'' :: (v.value ++ ['\'']) := by
            rw [Value.display, if_pos hdq]
          obtain ⟨htv, hdv⟩ := takeWhile_split (fun ch => !(ch == '\'')) v.value '\''
            (attrsRender ps' ++ close)
            (fun c hc => by
              have := not_mem_of_contains_false v.value '\'' hsq' c hc
              simp [this])
            (by decide)
          rw [hdisp]
          simp only [List.cons_append, List.append_assoc, List.singleton_append,
            List.nil_append, or_true, if_true]
          simp only [hdv, htv]
          rw [ih f close rest flag (by simp at hf; omega) hclose
            (fun x hx => hps x (by simp [hx]))]
          rfl
        · have hdisp : v.display = '"' :: (v.value ++ ['"']) := by
            rw [Value.display, if_neg hdq]
          obtain ⟨htv, hdv⟩ := takeWhile_split (fun ch => !(ch == '"')) v.value '"'
            (attrsRender ps' ++ close)
            (fun c hc => by
              have := not_mem_of_contains_false v.value '"' (by simpa using hdq) c hc
              simp [this])
            (by decide)
          rw [hdisp]
          simp only [List.cons_append, List.append_assoc, List.singleton_append,
            List.nil_append, true_or, if_true]
          simp only [hdv, htv]
          rw [ih f close rest flag (by simp at hf; omega) hclose
            (fun x hx => hps x (by simp [hx]))]
          rfl

theorem attrsRender_len :
    ∀ ps : List (Str × Value), ps.length ≤ (attrsRender ps).length := by
  intro ps
  induction ps with
  | nil => simp [attrsRender]
  | cons p rest ih =>
    obtain ⟨k, v⟩ := p
    rw [attrsRender]
    simp only [List.length_cons, List.length_append]
    omega

theorem lexTag_render_start (nm : Str) (ps : List (Str × Value)) (rest : Str)
    (opened : List Str) (hnm : nameOk nm = true)
    (hps : ∀ p ∈ ps, nameOk p.1 = true ∧ valueOk p.2.value = true) :
    lexTag (nm ++ (attrsRender ps ++ '>' :: rest)) opened =
      .ok (.startE nm (ps.map fun p => (p.1, p.2.value)), nm :: opened, rest) := by
  obtain ⟨hne, hall⟩ := nameOk_spec nm hnm
  cases hnmc : nm with
  | nil => exact absurd hnmc hne
  | cons c ntl =>
    subst hnmc
    obtain ⟨hws, htag, hkey, hend, hgt, hsl, hlt, hq, hb, heqc, hamp⟩ :=
      nameOkChar_spec c (hall c (by simp))
    have hhead : ∃ (x : Char) (X' : Str),
        attrsRender ps ++ '>' :: rest = x :: X' ∧ tagNameChar x = false := by
      cases ps with
      | nil => exact ⟨'>', rest, rfl, by decide⟩
      | cons p ps' =>
        obtain ⟨k, v⟩ := p
        refine ⟨' ', (k ++ '=' :: (v.display ++ attrsRender ps')) ++ '>' :: rest,
          ?_, by decide⟩
        rw [attrsRender]
        simp
    obtain ⟨x, X', hX, hxf⟩ := hhead
    obtain ⟨ht, hd⟩ := takeWhile_split tagNameChar (c :: ntl) x X'
      (fun d hdm => (nameOkChar_spec d (hall d hdm)).2.1) hxf
    rw [show (c :: ntl) ++ (attrsRender ps ++ '>' :: rest) =
      c :: (ntl ++ (attrsRender ps ++ '>' :: rest)) from by simp]
    rw [lexTag, if_neg (by simp [hq, hb]), if_neg hsl, if_pos htag]
    simp only [List.cons_append] at ht hd
    rw [hX]
    simp only [hd, ht]
    have hlen : ps.length < (x :: X').length + 1 := by
      rw [← hX]
      have := attrsRender_len ps
      simp only [List.length_append, List.length_cons]
      omega
    rw [show (x :: X') = attrsRender ps ++ '>' :: rest from hX.symm] at hlen ⊢
    simp only [lexAttrs_render ps _ ('>' :: rest) rest false hlen
      (Or.inr ⟨rfl, rfl⟩) hps]

theorem lexTag_render_empty (nm : Str) (ps : List (Str × Value)) (rest : Str)
    (opened : List Str) (hnm : nameOk nm = true)
    (hps : ∀ p ∈ ps, nameOk p.1 = true ∧ valueOk p.2.value = true) :
    lexTag (nm ++ (attrsRender ps ++ ' ' :: '/' :: '>' :: rest)) opened =
      .ok (.emptyE nm (ps.map fun p => (p.1, p.2.value)), opened, rest) := by
  obtain ⟨hne, hall⟩ := nameOk_spec nm hnm
  cases hnmc : nm with
  | nil => exact absurd hnmc hne
  | cons c ntl =>
    subst hnmc
    obtain ⟨hws, htag, hkey, hend, hgt, hsl, hlt, hq, hb, heqc, hamp⟩ :=
      nameOkChar_spec c (hall c (by simp))
    have hhead : ∃ (x : Char) (X' : Str),
        attrsRender ps ++ ' ' :: '/' :: '>' :: rest = x :: X' ∧
          tagNameChar x = false := by
      cases ps with
      | nil => exact ⟨' ', '/' :: '>' :: rest, rfl, by decide⟩
      | cons p ps' =>
        obtain ⟨k, v⟩ := p
        refine ⟨' ', (k ++ '=' :: (v.display ++ attrsRender ps')) ++
          ' ' :: '/' :: '>' :: rest, ?_, by decide⟩
        rw [attrsRender]
        simp
    obtain ⟨x, X', hX, hxf⟩ := hhead
    obtain ⟨ht, hd⟩ := takeWhile_split tagNameChar (c :: ntl) x X'
      (fun d hdm => (nameOkChar_spec d (hall d hdm)).2.1) hxf
    rw [show (c :: ntl) ++ (attrsRender ps ++ ' ' :: '/' :: '>' :: rest) =
      c :: (ntl ++ (attrsRender ps ++ ' ' :: '/' :: '>' :: rest)) from by simp]
    rw [lexTag, if_neg (by simp [hq, hb]), if_neg hsl, if_pos htag]
    simp only [List.cons_append] at ht hd
    rw [hX]
    simp only [hd, ht]
    have hlen : ps.length < (x :: X').length + 1 := by
      rw [← hX]
      have := attrsRender_len ps
      simp only [List.length_append, List.length_cons]
      omega
    rw [show (x :: X') = attrsRender ps ++ ' ' :: '/' :: '>' :: rest
      from hX.symm] at hlen ⊢
    simp only [lexAttrs_render ps _ (' ' :: '/' :: '>' :: rest) rest true hlen
      (Or.inl ⟨rfl, rfl⟩) hps]

theorem lexTag_end_render (nm : Str) (rest : Str) (os : List Str)
    (hnm : nameOk nm = true) :
    lexTag ('/' :: (nm ++ '>' :: rest)) (nm :: os) = .ok (.endE nm, os, rest) := by
  obtain ⟨hne, hall⟩ := nameOk_spec nm hnm
  obtain ⟨ht, hd⟩ := takeWhile_split endNameChar nm '>' rest
    (fun d hdm => (nameOkChar_spec d (hall d hdm)).2.2.2.1) (by decide)
  rw [lexTag, if_neg (by decide), if_pos rfl]
  simp only [hd, ht]
  rw [List.dropWhile_cons, if_neg (by decide)]
  simp

theorem lexTag_other_render (c0 : Char) (hc0 : c0 = '?' ∨ c0 = '!')
    (body rest : Str) (o : List Str) (hb : ∀ ch ∈ body, ¬ ch = '>') :
    lexTag (c0 :: (body ++ '>' :: rest)) o = .ok (.otherE, o, rest) := by
  obtain ⟨ht, hd⟩ := takeWhile_split (fun ch => !(ch == '>')) body '>' rest
    (fun ch hc => by simp [hb ch hc]) (by decide)
  rw [lexTag, if_pos hc0]
  simp only [hd]

theorem emitText_ws (p : Str) (hp : ∀ c ∈ p, wsChar c = true) :
    emitText p = [] := by
  rw [emitText, trimS_ws_nil p hp]

theorem emitText_text (p s : Str) (hp : trimS p = s) (hs : s ≠ []) :
    emitText p = [.textE s] := by
  rw [emitText, hp]
  cases s with
  | nil => exact absurd rfl hs
  | cons c cs => rfl

theorem wfEl_spec (nm : Str) (attrs : List (Str × Value)) (kids : NodeList)
    (h : wfEl (.mk nm attrs kids) = true) :
    nameOk nm = true ∧ attrsOk attrs = true ∧ wfKids kids = true := by
  rw [wfEl] at h
  simpa [Bool.and_eq_true, and_assoc] using h

theorem wfKids_cons_spec (n : Node) (ks : NodeList)
    (h : wfKids (.cons n ks) = true) :
    wfNode n = true ∧ noAdjText n ks = true ∧ wfKids ks = true := by
  rw [wfKids] at h
  simpa [Bool.and_eq_true, and_assoc] using h

theorem noAdjText_spec (s : Str) (ks : NodeList)
    (h : noAdjText (.text s) ks = true) : headIsText ks = false := by
  cases ks with
  | nil => rfl
  | cons n ks' =>
    cases n with
    | text s' => exact absurd h (by simp [noAdjText])
    | element e => rfl
    | comment c => rfl

theorem textRun_no_lt (s : Str) (hs : textOk s = true) :
    ∀ c ∈ s ++ ['\n'], ¬ c = '<' := by
  intro c hc
  rcases List.mem_append.mp hc with h | h
  · exact ((textOk_spec s hs).2.2 c h).1
  · simp at h
    subst h
    decide

theorem emitText_nil : emitText [] = [] := rfl

/-! ### Lemmas: the reader inverts the compact serializer -/

mutual

theorem compactEl_lex (t : Element) (hwf : wfEl t = true) (pend : Str)
    (o : List Str) (rest : Str) :
    lexP (Element.toStr t ++ rest) pend o =
      (emitText pend ++ eventsOfEl t ++ (lexP rest [] o).1,
        (lexP rest [] o).2) := by
  obtain ⟨nm, attrs, kids⟩ := t
  obtain ⟨hnm, hao, hkw⟩ := wfEl_spec nm attrs kids hwf
  have hps := (attrsOk_sort attrs hao).1
  cases kids with
  | nil =>
    have hshape : Element.toStr (.mk nm attrs .nil) ++ rest =
        '<' :: (nm ++ (attrsRender (sortAttrs attrs) ++
          ' ' :: '/' :: '>' :: rest)) := by
      rw [Element.toStr, show " />".toList = [' ', '/', '>'] from rfl]
      simp
    rw [hshape,
      lexP_tag _ _ _ _ _ _ (lexTag_render_empty nm (sortAttrs attrs) rest o hnm hps),
      eventsOfEl]
    simp [attrPairs]
  | cons n ks =>
    have hshape : Element.toStr (.mk nm attrs (.cons n ks)) ++ rest =
        '<' :: (nm ++ (attrsRender (sortAttrs attrs) ++ '>' ::
          ('\n' :: (kidsToStr (.cons n ks) ++
            '<' :: ('/' :: (nm ++ '>' :: rest)))))) := by
      rw [Element.toStr]
      simp
    rw [hshape,
      lexP_tag _ _ _ _ _ _
        (lexTag_render_start nm (sortAttrs attrs) _ o hnm hps),
      lexP_cons_txt '\n' _ [] (nm :: o) (by decide)]
    simp only [List.nil_append]
    rw [compactKids_lex (.cons n ks) hkw ['\n'] (by decide) (nm :: o)
        ('/' :: (nm ++ '>' :: rest)),
      lexP_tag _ _ _ _ _ _ (lexTag_end_render nm rest o hnm),
      eventsOfEl, emitText_nil]
    simp [attrPairs]

theorem compactKids_lex (kids : NodeList) (hwf : wfKids kids = true) (p : Str)
    (hp : ∀ c ∈ p, wsChar c = true) (o : List Str) (rest' : Str) :
    lexP (kidsToStr kids ++ '<' :: rest') p o =
      (eventsOfKids kids ++ (lexP ('<' :: rest') [] o).1,
        (lexP ('<' :: rest') [] o).2) := by
  cases kids with
  | nil =>
    rw [kidsToStr, List.nil_append, lexP_lt_pending, emitText_ws p hp, eventsOfKids]
  | cons n ks =>
    obtain ⟨hn, hadj, hks⟩ := wfKids_cons_spec n ks hwf
    cases n with
    | text s =>
      have hs : textOk s = true := hn
      have hshape : kidsToStr (.cons (.text s) ks) ++ '<' :: rest' =
          (s ++ ['\n']) ++ (kidsToStr ks ++ '<' :: rest') := by
        rw [kidsToStr, Node.toStr]
        simp
      rw [hshape, lexP_text_run (s ++ ['\n']) _ p o (textRun_no_lt s hs)]
      have htrim : trimS (p ++ (s ++ ['\n'])) = s := by
        rw [← List.append_assoc, trimS_wrap p s ['\n'] hp (by decide)]
        exact (textOk_spec s hs).1
      rw [compactAft_lex ks s hs hks (noAdjText_spec s ks hadj)
        (p ++ (s ++ ['\n'])) htrim o rest']
      rw [eventsOfKids, eventsOfNode]
      simp
    | element e =>
      have hshape : kidsToStr (.cons (.element e) ks) ++ '<' :: rest' =
          Element.toStr e ++ ('\n' :: (kidsToStr ks ++ '<' :: rest')) := by
        rw [kidsToStr, Node.toStr]
        simp
      rw [hshape, compactEl_lex e hn p o _,
        lexP_cons_txt '\n' _ [] o (by decide)]
      simp only [List.nil_append]
      rw [compactKids_lex ks hks ['\n'] (by decide) o rest',
        emitText_ws p hp, eventsOfKids, eventsOfNode]
      simp
    | comment c => exact absurd hn (by simp [wfNode])

theorem compactAft_lex (ks : NodeList) (s : Str) (hs : textOk s = true)
    (hwf : wfKids ks = true) (hht : headIsText ks = false) (p : Str)
    (hp : trimS p = s) (o : List Str) (rest' : Str) :
    lexP (kidsToStr ks ++ '<' :: rest') p o =
      (.textE s :: (eventsOfKids ks ++ (lexP ('<' :: rest') [] o).1),
        (lexP ('<' :: rest') [] o).2) := by
  have hsne : s ≠ [] := (textOk_spec s hs).2.1
  cases ks with
  | nil =>
    rw [kidsToStr, List.nil_append, lexP_lt_pending,
      emitText_text p s hp hsne, eventsOfKids]
    simp
  | cons n ks' =>
    obtain ⟨hn, hadj, hks⟩ := wfKids_cons_spec n ks' hwf
    cases n with
    | text s2 => exact absurd hht (by simp [headIsText])
    | element e =>
      have hshape : kidsToStr (.cons (.element e) ks') ++ '<' :: rest' =
          Element.toStr e ++ ('\n' :: (kidsToStr ks' ++ '<' :: rest')) := by
        rw [kidsToStr, Node.toStr]
        simp
      rw [hshape, compactEl_lex e hn p o _,
        lexP_cons_txt '\n' _ [] o (by decide)]
      simp only [List.nil_append]
      rw [compactKids_lex ks' hks ['\n'] (by decide) o rest',
        emitText_text p s hp hsne, eventsOfKids, eventsOfNode]
      simp
    | comment c => exact absurd hn (by simp [wfNode])

end

/-! ### Lemmas: the reader inverts the pretty serializer -/

theorem tabs_ws (d : Nat) : ∀ c ∈ tabs d, wsChar c = true := by
  intro c hc
  rw [tabs] at hc
  rw [List.eq_of_mem_replicate hc]
  decide

theorem ws_no_lt (w : Str) (hw : ∀ c ∈ w, wsChar c = true) :
    ∀ c ∈ w, ¬ c = '<' := by
  intro c hc he
  subst he
  have := hw '<' hc
  exact absurd this (by decide)

theorem trimS_ws_prepend (w s : Str) (hw : ∀ c ∈ w, wsChar c = true) :
    trimS (w ++ s) = trimS s := by
  rw [trimS, trimL_ws_prepend w s hw]
  rfl

theorem emitText_append_ws (p w : Str) (hw : ∀ c ∈ w, wsChar c = true) :
    emitText (p ++ w) = emitText p := by
  rw [emitText, emitText, trimS_append_ws p w hw]

mutual

theorem pretty_buff_el (t : Element) (buff : Str) (d : Nat) :
    Element.pretty_fmt_internal t buff d =
      buff ++ Element.pretty_fmt_internal t [] d := by
  obtain ⟨nm, attrs, kids⟩ := t
  cases kids with
  | nil =>
    rw [Element.pretty_fmt_internal, Element.pretty_fmt_internal]
    simp
  | cons n ks =>
    rw [Element.pretty_fmt_internal, Element.pretty_fmt_internal]
    rw [pretty_buff_kids (.cons n ks)
      ((buff ++ tabs d ++ '<' :: (nm ++ attrsRender (sortAttrs attrs))) ++
        '>' :: ['\n']) d,
      pretty_buff_kids (.cons n ks)
      (([] ++ tabs d ++ '<' :: (nm ++ attrsRender (sortAttrs attrs))) ++
        '>' :: ['\n']) d]
    simp

theorem pretty_buff_kids (kids : NodeList) (buff : Str) (d : Nat) :
    kidsPretty kids buff d = buff ++ kidsPretty kids [] d := by
  cases kids with
  | nil => rw [kidsPretty, kidsPretty]; simp
  | cons n ks =>
    rw [kidsPretty, kidsPretty,
      pretty_buff_kids ks (nodePretty n buff d) d,
      pretty_buff_kids ks (nodePretty n [] d) d,
      pretty_buff_node n buff d]
    simp

theorem pretty_buff_node (n : Node) (buff : Str) (d : Nat) :
    nodePretty n buff d = buff ++ nodePretty n [] d := by
  cases n with
  | text s => rw [nodePretty, nodePretty]; simp
  | element e =>
    rw [nodePretty, nodePretty]
    exact pretty_buff_el e buff (d + 1)
  | comment c => rw [nodePretty, nodePretty]; simp

end

mutual

theorem prettyEl_lex (t : Element) (hwf : wfEl t = true) (d : Nat) (pend : Str)
    (o : List Str) (rest : Str) :
    lexP (Element.pretty_fmt_internal t [] d ++ rest) pend o =
      (emitText pend ++ eventsOfEl t ++ (lexP rest ['\n'] o).1,
        (lexP rest ['\n'] o).2) := by
  obtain ⟨nm, attrs, kids⟩ := t
  obtain ⟨hnm, hao, hkw⟩ := wfEl_spec nm attrs kids hwf
  have hps := (attrsOk_sort attrs hao).1
  cases kids with
  | nil =>
    have hshape : Element.pretty_fmt_internal (.mk nm attrs .nil) [] d ++ rest =
        tabs d ++ ('<' :: (nm ++ (attrsRender (sortAttrs attrs) ++
          ' ' :: '/' :: '>' :: ('\n' :: rest)))) := by
      rw [Element.pretty_fmt_internal,
        show " />\n".toList = [' ', '/', '>', '\n'] from rfl]
      simp
    rw [hshape, lexP_text_run (tabs d) _ pend o (ws_no_lt _ (tabs_ws d)),
      lexP_tag _ _ _ _ _ _
        (lexTag_render_empty nm (sortAttrs attrs) ('\n' :: rest) o hnm hps),
      lexP_cons_txt '\n' rest [] o (by decide)]
    simp only [List.nil_append]
    rw [emitText_append_ws pend (tabs d) (tabs_ws d), eventsOfEl]
    simp [attrPairs]
  | cons n ks =>
    have hshape :
        Element.pretty_fmt_internal (.mk nm attrs (.cons n ks)) [] d ++ rest =
        tabs d ++ ('<' :: (nm ++ (attrsRender (sortAttrs attrs) ++ '>' ::
          ('\n' :: (kidsPretty (.cons n ks) [] d ++
            (tabs d ++ '<' :: ('/' :: (nm ++ '>' :: ('\n' :: rest))))))))) := by
      rw [Element.pretty_fmt_internal,
        pretty_buff_kids (.cons n ks)
          (([] ++ tabs d ++ '<' :: (nm ++ attrsRender (sortAttrs attrs))) ++
            '>' :: ['\n']) d]
      simp
    rw [hshape, lexP_text_run (tabs d) _ pend o (ws_no_lt _ (tabs_ws d)),
      lexP_tag _ _ _ _ _ _ (lexTag_render_start nm (sortAttrs attrs) _ o hnm hps),
      lexP_cons_txt '\n' _ [] (nm :: o) (by decide)]
    simp only [List.nil_append]
    rw [prettyKids_lex (.cons n ks) hkw d ['\n'] (by decide) (nm :: o)
        (tabs d) (tabs_ws d) ('/' :: (nm ++ '>' :: ('\n' :: rest))),
      lexP_tag _ _ _ _ _ _ (lexTag_end_render nm ('\n' :: rest) o hnm),
      lexP_cons_txt '\n' rest [] o (by decide)]
    simp only [List.nil_append]
    rw [emitText_append_ws pend (tabs d) (tabs_ws d), emitText_nil, eventsOfEl]
    simp [attrPairs]

theorem prettyKids_lex (kids : NodeList) (hwf : wfKids kids = true) (d : Nat)
    (p : Str) (hp : ∀ c ∈ p, wsChar c = true) (o : List Str) (w : Str)
    (hw : ∀ c ∈ w, wsChar c = true) (rest' : Str) :
    lexP (kidsPretty kids [] d ++ (w ++ '<' :: rest')) p o =
      (eventsOfKids kids ++ (lexP ('<' :: rest') [] o).1,
        (lexP ('<' :: rest') [] o).2) := by
  cases kids with
  | nil =>
    rw [kidsPretty, List.nil_append, lexP_text_run w _ p o (ws_no_lt w hw),
      lexP_lt_pending, emitText_append_ws p w hw, emitText_ws p hp, eventsOfKids]
  | cons n ks =>
    obtain ⟨hn, hadj, hks⟩ := wfKids_cons_spec n ks hwf
    cases n with
    | text s =>
      have hshape : kidsPretty (.cons (.text s) ks) [] d ++ (w ++ '<' :: rest') =
          s ++ (kidsPretty ks [] d ++ (w ++ '<' :: rest')) := by
        rw [kidsPretty, pretty_buff_kids ks (nodePretty (.text s) [] d) d,
          nodePretty]
        simp
      rw [hshape,
        lexP_text_run s _ p o (fun c hc => ((textOk_spec s hn).2.2 c hc).1),
        prettyAft_lex ks s hn hks (noAdjText_spec s ks hadj) d (p ++ s)
          (by rw [trimS_ws_prepend p s hp]; exact (textOk_spec s hn).1) o w hw rest',
        eventsOfKids, eventsOfNode]
      simp
    | element e =>
      have hshape : kidsPretty (.cons (.element e) ks) [] d ++ (w ++ '<' :: rest') =
          Element.pretty_fmt_internal e [] (d + 1) ++
            (kidsPretty ks [] d ++ (w ++ '<' :: rest')) := by
        rw [kidsPretty, pretty_buff_kids ks (nodePretty (.element e) [] d) d,
          nodePretty]
        simp
      rw [hshape, prettyEl_lex e hn (d + 1) p o _,
        prettyKids_lex ks hks d ['\n'] (by decide) o w hw rest',
        emitText_ws p hp, eventsOfKids, eventsOfNode]
      simp
    | comment c => exact absurd hn (by simp [wfNode])

theorem prettyAft_lex (ks : NodeList) (s : Str) (hs : textOk s = true)
    (hwf : wfKids ks = true) (hht : headIsText ks = false) (d : Nat) (p : Str)
    (hp : trimS p = s) (o : List Str) (w : Str) (hw : ∀ c ∈ w, wsChar c = true)
    (rest' : Str) :
    lexP (kidsPretty ks [] d ++ (w ++ '<' :: rest')) p o =
      (.textE s :: (eventsOfKids ks ++ (lexP ('<' :: rest') [] o).1),
        (lexP ('<' :: rest') [] o).2) := by
  have hsne := (textOk_spec s hs).2.1
  cases ks with
  | nil =>
    rw [kidsPretty, List.nil_append, lexP_text_run w _ p o (ws_no_lt w hw),
      lexP_lt_pending, emitText_append_ws p w hw, emitText_text p s hp hsne,
      eventsOfKids]
    simp
  | cons n ks' =>
    obtain ⟨hn, hadj, hks⟩ := wfKids_cons_spec n ks' hwf
    cases n with
    | text s2 => exact absurd hht (by simp [headIsText])
    | element e =>
      have hshape : kidsPretty (.cons (.element e) ks') [] d ++ (w ++ '<' :: rest') =
          Element.pretty_fmt_internal e [] (d + 1) ++
            (kidsPretty ks' [] d ++ (w ++ '<' :: rest')) := by
        rw [kidsPretty, pretty_buff_kids ks' (nodePretty (.element e) [] d) d,
          nodePretty]
        simp
      rw [hshape, prettyEl_lex e hn (d + 1) p o _,
        prettyKids_lex ks' hks d ['\n'] (by decide) o w hw rest',
        emitText_text p s hp hsne, eventsOfKids, eventsOfNode]
      simp
    | comment c => exact absurd hn (by simp [wfNode])

end

theorem preamble_lex (rest p : Str) (o : List Str) :
    lexP (preamble ++ rest) p o =
      (emitText p ++ .otherE :: .otherE :: (lexP rest ['\n'] o).1,
        (lexP rest ['\n'] o).2) := by
  have hshape : preamble ++ rest =
      '<' :: ('?' :: ("xml version=\"1.0\" encoding=\"UTF-8\"?".toList ++ '>' ::
        ('\n' :: ('<' :: ('!' ::
          ("DOCTYPE svg PUBLIC \"-//W3C//DTD SVG 1.0//EN\" \"http://www.w3.org/TR/2001/REC-SVG-20010904/DTD/svg10.dtd\"".toList ++
            '>' :: ('\n' :: rest))))))) := by
    rw [show preamble =
      '<' :: ('?' :: ("xml version=\"1.0\" encoding=\"UTF-8\"?".toList ++ '>' ::
        ('\n' :: ('<' :: ('!' ::
          ("DOCTYPE svg PUBLIC \"-//W3C//DTD SVG 1.0//EN\" \"http://www.w3.org/TR/2001/REC-SVG-20010904/DTD/svg10.dtd\"".toList ++
            '>' :: ['\n'])))))) from rfl]
    simp
  rw [hshape,
    lexP_tag _ _ _ _ _ _ (lexTag_other_render '?' (Or.inl rfl) _ _ o (by decide)),
    lexP_cons_txt '\n' _ [] o (by decide)]
  simp only [List.nil_append]
  rw [lexP_tag _ _ _ _ _ _ (lexTag_other_render '!' (Or.inr rfl) _ _ o (by decide)),
    lexP_cons_txt '\n' rest [] o (by decide)]
  simp only [List.nil_append]
  rw [emitText_ws ['\n'] (by decide)]
  simp

theorem lex_compact (t : Element) (hwf : wfEl t = true) :
    lex (Element.toStr t) = (eventsOfEl t, none) := by
  have h := compactEl_lex t hwf [] [] []
  rw [List.append_nil] at h
  show lexP (Element.toStr t) [] [] = _
  rw [h, lexP_nil, emitText_nil]
  simp [emitText_nil]

/-! ### Lemmas: the parser loop consumes canonical event streams -/

theorem appendNL_nil : ∀ l : NodeList, l.append .nil = l
  | .nil => rfl
  | .cons n r => by rw [NodeList.append, appendNL_nil r]

theorem push_eq_appendNL :
    ∀ (l : NodeList) (n : Node), l.push n = l.append (.cons n .nil)
  | .nil, _ => rfl
  | .cons m r, n => by rw [NodeList.push, NodeList.append, push_eq_appendNL r n]

theorem appendNL_assoc : ∀ a b c : NodeList,
    (a.append b).append c = a.append (b.append c)
  | .nil, _, _ => rfl
  | .cons n r, b, c => by
    rw [NodeList.append, NodeList.append, NodeList.append, appendNL_assoc r b c]

theorem addAll_mk (nm : Str) (attrs : List (Str × Value)) :
    ∀ (ks acc : NodeList),
      Element.addAll (.mk nm attrs acc) ks = .mk nm attrs (acc.append ks)
  | .nil, acc => by rw [Element.addAll, appendNL_nil]
  | .cons n r, acc => by
    show Element.addAll (.mk nm attrs (acc.push n)) r = _
    rw [addAll_mk nm attrs r (acc.push n), push_eq_appendNL, appendNL_assoc]
    rfl

theorem foldAttrs_exact :
    ∀ (ps : List (Str × Value)) (nm : Str) (acc : List (Str × Value))
      (kids : NodeList),
      (∀ p ∈ ps, ∀ c ∈ p.2.value, ¬ c = '&') →
      (∀ p ∈ ps, p.1 ∉ acc.map Prod.fst) →
      (ps.map Prod.fst).Nodup →
      foldAttrs (.mk nm acc kids) (ps.map (fun p => (p.1, p.2.value))) =
        .ok (.mk nm (acc ++ ps) kids) := by
  intro ps
  induction ps with
  | nil =>
    intro nm acc kids _ _ _
    rw [List.map_nil, foldAttrs, List.append_nil]
  | cons p ps' ih =>
    intro nm acc kids hamp hfresh hnd
    obtain ⟨k, v⟩ := p
    rw [List.map_cons, foldAttrs,
      unescape_noAmp v.value (hamp (k, v) (by simp))]
    have hset : (Element.mk nm acc kids).set k ⟨v.value⟩ =
        .mk nm (acc ++ [(k, v)]) kids := by
      show Element.mk nm (insertP acc k ⟨v.value⟩) kids = _
      have hv : (⟨v.value⟩ : Value) = v := rfl
      rw [hv, insertP, List.filter_eq_self.mpr]
      intro a ha
      simp only [decide_eq_true_eq]
      intro he
      exact hfresh (k, v) (by simp) (List.mem_map.mpr ⟨a, ha, he⟩)
    have hnd0 : k ∉ ps'.map Prod.fst ∧ (ps'.map Prod.fst).Nodup := by
      have h0 : (k :: ps'.map Prod.fst).Nodup := hnd
      exact List.nodup_cons.mp h0
    show foldAttrs ((Element.mk nm acc kids).set k ⟨v.value⟩)
        (ps'.map (fun p => (p.1, p.2.value))) = _
    rw [hset, ih nm (acc ++ [(k, v)]) kids
      (fun q hq => hamp q (by simp [hq]))
      ?_ hnd0.2]
    · simp
    · intro q hq
      simp only [List.map_append, List.map_cons, List.map_nil]
      intro hmem
      rcases List.mem_append.mp hmem with h1 | h1
      · exact hfresh q (by simp [hq]) h1
      · simp at h1
        exact hnd0.1 (h1 ▸ List.mem_map.mpr ⟨q, hq, rfl⟩)

theorem to_element_exact (nm : Str) (attrs : List (Str × Value))
    (hao : attrsOk attrs = true) :
    to_element nm (attrPairs attrs) = .ok (.mk nm (sortAttrs attrs) .nil) := by
  obtain ⟨hall, hnd⟩ := attrsOk_sort attrs hao
  rw [to_element, attrPairs]
  show foldAttrs (.mk nm [] .nil) _ = _
  rw [foldAttrs_exact (sortAttrs attrs) nm [] .nil
    (fun p hp c hc => ((valueOk_spec _ (hall p hp).2).2 c hc).2.2)
    (by simp) hnd]
  rfl

mutual

theorem runEl_elem : ∀ (t : Element), wfEl t = true →
    ∀ (evs : List XEvent) (parent : Element) (st : List Element)
      (res : Option Element),
    runEvents (eventsOfEl t ++ evs) (parent :: st) res =
      runEvents evs (parent.add (canonEl t) :: st) res
  | .mk nm attrs kids, hwf, evs, parent, st, res => by
    obtain ⟨hnm, hao, hkw⟩ := wfEl_spec nm attrs kids hwf
    cases kids with
    | nil =>
      show (match to_element nm (attrPairs attrs) with
        | .error e => RunOut.err e
        | .ok el => runEvents evs (parent.add el :: st) res) = _
      rw [to_element_exact nm attrs hao]
      rfl
    | cons n rest =>
      show (match to_element nm (attrPairs attrs) with
        | .error e => RunOut.err e
        | .ok el =>
          runEvents ((eventsOfKids (NodeList.cons n rest) ++ [XEvent.endE nm]) ++ evs)
            (el :: parent :: st) res) = _
      rw [to_element_exact nm attrs hao, List.append_assoc,
        List.singleton_append]
      show runEvents (eventsOfKids (NodeList.cons n rest) ++ XEvent.endE nm :: evs)
        (Element.mk nm (sortAttrs attrs) NodeList.nil :: parent :: st) res = _
      rw [runKids_go (NodeList.cons n rest) hkw (XEvent.endE nm :: evs)
          (Element.mk nm (sortAttrs attrs) NodeList.nil) (parent :: st) res,
        addAll_mk nm (sortAttrs attrs) (canonKids (NodeList.cons n rest))
          NodeList.nil]
      rfl

theorem runKids_go : ∀ (kids : NodeList), wfKids kids = true →
    ∀ (evs : List XEvent) (frame : Element) (st : List Element)
      (res : Option Element),
    runEvents (eventsOfKids kids ++ evs) (frame :: st) res =
      runEvents evs (frame.addAll (canonKids kids) :: st) res
  | .nil, _, evs, frame, st, res => rfl
  | .cons n rest, hwf, evs, frame, st, res => by
    obtain ⟨hn, _, hrest⟩ := wfKids_cons_spec n rest hwf
    show runEvents ((eventsOfNode n ++ eventsOfKids rest) ++ evs)
        (frame :: st) res = _
    rw [List.append_assoc, runNode_go n hn (eventsOfKids rest ++ evs) frame st res,
      runKids_go rest hrest evs (frame.add_node (canonNode n)) st res]
    rfl

theorem runNode_go : ∀ (n : Node), wfNode n = true →
    ∀ (evs : List XEvent) (frame : Element) (st : List Element)
      (res : Option Element),
    runEvents (eventsOfNode n ++ evs) (frame :: st) res =
      runEvents evs (frame.add_node (canonNode n) :: st) res
  | .text s, hwf, evs, frame, st, res => by
    have hna : ∀ c ∈ s, ¬ c = '&' := fun c hc => ((textOk_spec s hwf).2.2 c hc).2
    show (match unescape s with
      | none => RunOut.err .xmlError
      | some txt => runEvents evs (frame.add_node (.text txt) :: st) res) = _
    rw [unescape_noAmp s hna]
    rfl
  | .element e, hwf, evs, frame, st, res => runEl_elem e hwf evs frame st res
  | .comment _, hwf, _, _, _, _ => Bool.noConfusion hwf

end

theorem runEl_root (nm : Str) (attrs : List (Str × Value)) (n : Node)
    (kids : NodeList) (hwf : wfEl (.mk nm attrs (.cons n kids)) = true)
    (evs : List XEvent) (res : Option Element) :
    runEvents (eventsOfEl (.mk nm attrs (.cons n kids)) ++ evs) [] res =
      runEvents evs [] (some (canonEl (.mk nm attrs (.cons n kids)))) := by
  obtain ⟨hnm, hao, hkw⟩ := wfEl_spec nm attrs (.cons n kids) hwf
  show (match to_element nm (attrPairs attrs) with
    | .error e => RunOut.err e
    | .ok el =>
      runEvents ((eventsOfKids (NodeList.cons n kids) ++ [XEvent.endE nm]) ++ evs)
        (el :: ([] : List Element)) res) = _
  rw [to_element_exact nm attrs hao, List.append_assoc, List.singleton_append]
  show runEvents (eventsOfKids (NodeList.cons n kids) ++ XEvent.endE nm :: evs)
    (Element.mk nm (sortAttrs attrs) NodeList.nil :: ([] : List Element)) res = _
  rw [runKids_go (NodeList.cons n kids) hkw (XEvent.endE nm :: evs)
      (Element.mk nm (sortAttrs attrs) NodeList.nil) [] res,
    addAll_mk nm (sortAttrs attrs) (canonKids (NodeList.cons n kids))
      NodeList.nil]
  rfl

theorem runEvents_pre (b : Bool) (evs : List XEvent) (st : List Element)
    (res : Option Element) :
    runEvents ((if b then ([.otherE, .otherE] : List XEvent) else []) ++ evs)
      st res = runEvents evs st res := by
  cases b
  · rfl
  · rfl

theorem parse_string_ok (s : Str) (evs : List XEvent) (st : List Element)
    (c : Element) (h1 : lex s = (evs, none))
    (h2 : runEvents evs [] none = .fin st (some c)) :
    parse_string s = .ok c := by
  have hevs : (lex s).1 = evs := by rw [h1]
  have hnone : (lex s).2 = none := by rw [h1]
  show (match runEvents (lex s).1 [] none with
    | .fault => PResult.fault
    | .err e => PResult.err e
    | .fin _ result =>
      match (lex s).2 with
      | some le => PResult.err (lexErrToError le)
      | none =>
        match result with
        | some e => PResult.ok e
        | none => PResult.err Error.emptyDocument) = _
  rw [hevs, hnone, h2]

theorem lex_pretty_gen (t : Element) (hwf : wfEl t = true) :
    lex (Element.to_pretty_string t) =
      ((if t.name == "svg".toList then ([.otherE, .otherE] : List XEvent)
        else []) ++ eventsOfEl t, none) := by
  cases hb : t.name == "svg".toList with
  | true =>
    show lexP (Element.pretty_fmt_internal t
      (if t.name == "svg".toList then preamble else []) 0) [] [] = _
    rw [hb]
    simp only [if_true]
    rw [pretty_buff_el t preamble 0,
      preamble_lex (Element.pretty_fmt_internal t [] 0) [] [],
      ← List.append_nil (Element.pretty_fmt_internal t [] 0),
      prettyEl_lex t hwf 0 ['\n'] [] [], lexP_nil,
      emitText_ws ['\n'] (by decide), emitText_nil]
    simp
  | false =>
    show lexP (Element.pretty_fmt_internal t
      (if t.name == "svg".toList then preamble else []) 0) [] [] = _
    rw [hb]
    simp only [if_false, Bool.false_eq_true]
    rw [← List.append_nil (Element.pretty_fmt_internal t [] 0),
      prettyEl_lex t hwf 0 [] [] [], lexP_nil,
      emitText_ws ['\n'] (by decide), emitText_nil]
    simp

/-! ### Lemmas: structural equality of the parsed tree with the input -/

theorem eqMapB_sort (attrs : List (Str × Value))
    (hnd : (attrs.map Prod.fst).Nodup) :
    eqMapB (sortAttrs attrs) attrs = true := by
  have hperm := sortAttrs_perm attrs
  have hnds : ((sortAttrs attrs).map Prod.fst).Nodup :=
    ((hperm.map Prod.fst).nodup_iff).mpr hnd
  rw [eqMapB, Bool.and_eq_true, subMapB, subMapB,
    List.all_eq_true, List.all_eq_true]
  constructor
  · intro p hp
    obtain ⟨k, v⟩ := p
    simp only [beq_iff_eq]
    rw [lookupP_perm attrs (sortAttrs attrs) hperm.symm hnd k]
    exact lookupP_eq_some_of_mem (sortAttrs attrs) k v hnds hp
  · intro p hp
    obtain ⟨k, v⟩ := p
    simp only [beq_iff_eq]
    rw [lookupP_perm (sortAttrs attrs) attrs hperm hnds k]
    exact lookupP_eq_some_of_mem attrs k v hnd hp

mutual

theorem equivEl_canon : ∀ t : Element, wfEl t = true →
    equivEl (canonEl t) t = true
  | .mk nm attrs kids, hwf => by
    obtain ⟨hnm, hao, hkw⟩ := wfEl_spec nm attrs kids hwf
    show (nm == nm && eqMapB (sortAttrs attrs) attrs &&
      equivKids (canonKids kids) kids) = true
    rw [eqMapB_sort attrs (attrsOk_spec attrs hao).2,
      equivKids_canon kids hkw]
    simp

theorem equivKids_canon : ∀ k : NodeList, wfKids k = true →
    equivKids (canonKids k) k = true
  | .nil, _ => rfl
  | .cons n rest, hwf => by
    obtain ⟨hn, _, hrest⟩ := wfKids_cons_spec n rest hwf
    show (equivNode (canonNode n) n && equivKids (canonKids rest) rest) = true
    rw [equivNode_canon n hn, equivKids_canon rest hrest]
    rfl

theorem equivNode_canon : ∀ n : Node, wfNode n = true →
    equivNode (canonNode n) n = true
  | .text s, _ => by
    show (s == s) = true
    exact beq_self_eq_true s
  | .element e, hwf => equivEl_canon e hwf
  | .comment _, hwf => Bool.noConfusion hwf

end

/-! ### Lemmas: several complete top-level roots in sequence -/

theorem lexP_roots : ∀ ts : List Element, (∀ u ∈ ts, wfEl u = true) →
    lexP (ts.flatMap Element.toStr) [] [] = (ts.flatMap eventsOfEl, none) := by
  intro ts
  induction ts with
  | nil => intro _; rfl
  | cons t ts' ih =>
    intro hall
    rw [List.flatMap_cons,
      compactEl_lex t (hall t (by simp)) [] [] (ts'.flatMap Element.toStr),
      ih (fun u hu => hall u (by simp [hu])), emitText_nil, List.flatMap_cons]
    simp

theorem runRoots : ∀ (ts : List Element) (res : Option Element),
    (∀ u ∈ ts, wfEl u = true ∧ u.children.isNil = false) →
    runEvents (ts.flatMap eventsOfEl) [] res =
      .fin [] (ts.foldl (fun _ u => some (canonEl u)) res) := by
  intro ts
  induction ts with
  | nil => intro res _; rfl
  | cons t ts' ih =>
    intro res hall
    obtain ⟨nm, attrs, kids⟩ := t
    cases kids with
    | nil =>
      exact Bool.noConfusion
        (hall (Element.mk nm attrs NodeList.nil) (List.mem_cons_self _ _)).2
    | cons n ks =>
      rw [List.flatMap_cons,
        runEl_root nm attrs n ks
          (hall (Element.mk nm attrs (NodeList.cons n ks))
            (List.mem_cons_self _ _)).1 (ts'.flatMap eventsOfEl) res,
        ih (some (canonEl (.mk nm attrs (.cons n ks))))
          (fun u hu => hall u (by simp [hu]))]
      rfl

/-- C2 (code evidence): a transition that must pop an open-element
frame from an empty stack does not return a recoverable error — it
faults.  A self-closing tag at top level and text outside any open
element both hit `stack.pop().unwrap()` and fault; only the stray
end-tag is caught earlier, by the reader's end-name check. -/
theorem claim_C2_failing :
    parse_string "<bar/>".toList = .fault ∧
    parse_string "hello".toList = .fault ∧
    parse_string "</foo>".toList = .err .xmlError :=
  ⟨rfl, rfl, rfl⟩

/-! ### Claim C3: result at end-of-stream -/

/-- C3: for input whose events are read without a reader error and
parsed to end-of-stream without an error or fault, `parse_string`
returns the completed root when one exists at end-of-stream, and fails
with `EmptyDocument` otherwise (covering empty input and input whose
outermost tag never closes). -/
theorem claim_C3 (s : Str) (stack : List Element) (result : Option Element)
    (hrun : runEvents (lex s).1 [] none = .fin stack result)
    (hlex : (lex s).2 = none) :
    parse_string s =
      match result with
      | some root => .ok root
      | none => .err .emptyDocument := by
  cases result with
  | some root =>
    show (match runEvents (lex s).1 [] none with
      | .fault => PResult.fault
      | .err e => .err e
      | .fin _ result =>
        match (lex s).2 with
        | some le => .err (lexErrToError le)
        | none =>
          match result with
          | some e => .ok e
          | none => .err .emptyDocument) = .ok root
    rw [hrun, hlex]
  | none =>
    show (match runEvents (lex s).1 [] none with
      | .fault => PResult.fault
      | .err e => .err e
      | .fin _ result =>
        match (lex s).2 with
        | some le => .err (lexErrToError le)
        | none =>
          match result with
          | some e => .ok e
          | none => .err .emptyDocument) = .err .emptyDocument
    rw [hrun, hlex]

/-- Witness for C3: an unclosed outermost tag yields `EmptyDocument`,
and a closed root is returned. -/
theorem claim_C3_witness :
    parse_string "<a>".toList = .err .emptyDocument ∧
    parse_string "<a><b/></a>".toList =
      .ok (.mk "a".toList [] (.cons (.element (.mk "b".toList [] .nil)) .nil)) :=
  ⟨claim_C3 "<a>".toList [.mk "a".toList [] .nil] none rfl rfl,
    claim_C3 "<a><b/></a>".toList []
      (some (.mk "a".toList [] (.cons (.element (.mk "b".toList [] .nil)) .nil)))
      rfl rfl⟩

/-! ### Claim C8: the parser never reconstructs comments -/

theorem commentFreeKids_push :
    ∀ (kids : NodeList) (n : Node),
      commentFreeKids kids = true → commentFreeNode n = true →
      commentFreeKids (kids.push n) = true
  | .nil, n, _, hn => by simp [NodeList.push, commentFreeKids, hn]
  | .cons m rest, n, hk, hn => by
    rw [commentFreeKids] at hk
    rw [NodeList.push, commentFreeKids]
    simp only [Bool.and_eq_true] at hk ⊢
    exact ⟨hk.1, commentFreeKids_push rest n hk.2 hn⟩

theorem commentFreeEl_add (el child : Element)
    (he : commentFreeEl el = true) (hc : commentFreeEl child = true) :
    commentFreeEl (el.add child) = true := by
  obtain ⟨nm, attrs, kids⟩ := el
  rw [commentFreeEl] at he
  exact commentFreeKids_push kids _ he (by simpa [commentFreeNode] using hc)

theorem commentFreeEl_add_text (el : Element) (s : Str)
    (he : commentFreeEl el = true) :
    commentFreeEl (el.add_node (.text s)) = true := by
  obtain ⟨nm, attrs, kids⟩ := el
  rw [commentFreeEl] at he
  exact commentFreeKids_push kids _ he rfl

theorem foldAttrs_children (attrs : List (Str × Str)) :
    ∀ el el', foldAttrs el attrs = .ok el' → el'.children = el.children := by
  induction attrs with
  | nil =>
    intro el el' h
    rw [foldAttrs] at h
    cases h
    rfl
  | cons p rest ih =>
    intro el el' h
    obtain ⟨k, v⟩ := p
    rw [foldAttrs] at h
    cases hu : unescape v with
    | none => rw [hu] at h; exact absurd h (by simp)
    | some v' =>
      rw [hu] at h
      rw [ih _ _ h]
      rfl

theorem to_element_commentFree (nm : Str) (attrs : List (Str × Str)) (el : Element)
    (h : to_element nm attrs = .ok el) : commentFreeEl el = true := by
  have hch : el.children = (Element.new nm).children := foldAttrs_children attrs _ _ h
  obtain ⟨n, a, kids⟩ := el
  have : kids = .nil := hch
  subst this
  rfl

theorem runEvents_commentFree :
    ∀ (evs : List XEvent) (stack : List Element) (result : Option Element)
      (stack' : List Element) (result' : Option Element),
      runEvents evs stack result = .fin stack' result' →
      (∀ el ∈ stack, commentFreeEl el = true) →
      (∀ el, result = some el → commentFreeEl el = true) →
      (∀ el ∈ stack', commentFreeEl el = true) ∧
        (∀ el, result' = some el → commentFreeEl el = true) := by
  intro evs
  induction evs with
  | nil =>
    intro stack result stack' result' h hs hr
    have h' : RunOut.fin stack result = .fin stack' result' := h
    cases h'
    exact ⟨hs, hr⟩
  | cons ev rest ih =>
    intro stack result stack' result' h hs hr
    cases ev with
    | startE nm attrs =>
      have h' : (match to_element nm attrs with
        | .error e => RunOut.err e
        | .ok el => runEvents rest (el :: stack) result) = .fin stack' result' := h
      cases hte : to_element nm attrs with
      | error e => rw [hte] at h'; exact absurd h' (by simp)
      | ok el =>
        rw [hte] at h'
        refine ih _ _ _ _ h' ?_ hr
        intro x hx
        rcases List.mem_cons.mp hx with he | ht
        · exact he ▸ to_element_commentFree nm attrs el hte
        · exact hs x ht
    | emptyE nm attrs =>
      cases stack with
      | nil =>
        have h' : RunOut.fault = .fin stack' result' := h
        exact absurd h' (by simp)
      | cons parent st =>
        have h' : (match to_element nm attrs with
          | .error e => RunOut.err e
          | .ok el => runEvents rest (parent.add el :: st) result) =
            .fin stack' result' := h
        cases hte : to_element nm attrs with
        | error e => rw [hte] at h'; exact absurd h' (by simp)
        | ok el =>
          rw [hte] at h'
          refine ih _ _ _ _ h' ?_ hr
          intro x hx
          rcases List.mem_cons.mp hx with he | ht
          · exact he ▸ commentFreeEl_add parent el
              (hs parent (List.mem_cons_self _ _))
              (to_element_commentFree nm attrs el hte)
          · exact hs x (List.mem_cons_of_mem _ ht)
    | endE nm =>
      cases stack with
      | nil =>
        have h' : RunOut.fault = .fin stack' result' := h
        exact absurd h' (by simp)
      | cons current st =>
        cases st with
        | nil =>
          have h' : runEvents rest [] (some current) = .fin stack' result' := h
          refine ih _ _ _ _ h' (by simp) ?_
          intro x hx
          cases hx
          exact hs current (List.mem_cons_self _ _)
        | cons parent st' =>
          have h' : runEvents rest (parent.add current :: st') result =
              .fin stack' result' := h
          refine ih _ _ _ _ h' ?_ hr
          intro x hx
          rcases List.mem_cons.mp hx with he | ht
          · exact he ▸ commentFreeEl_add parent current
              (hs parent (by simp))
              (hs current (List.mem_cons_self _ _))
          · exact hs x (by simp [ht])
    | textE s =>
      cases stack with
      | nil =>
        have h' : (match unescape s with
          | none => RunOut.err .xmlError
          | some _ => RunOut.fault) = .fin stack' result' := h
        cases hu : unescape s with
        | none => rw [hu] at h'; exact absurd h' (by simp)
        | some txt => rw [hu] at h'; exact absurd h' (by simp)
      | cons parent st =>
        have h' : (match unescape s with
          | none => RunOut.err .xmlError
          | some txt =>
            runEvents rest (parent.add_node (.text txt) :: st) result) =
            .fin stack' result' := h
        cases hu : unescape s with
        | none => rw [hu] at h'; exact absurd h' (by simp)
        | some txt =>
          rw [hu] at h'
          refine ih _ _ _ _ h' ?_ hr
          intro x hx
          rcases List.mem_cons.mp hx with he | ht
          · exact he ▸ commentFreeEl_add_text parent txt
              (hs parent (List.mem_cons_self _ _))
          · exact hs x (List.mem_cons_of_mem _ ht)
    | otherE =>
      have h' : runEvents rest stack result = .fin stack' result' := h
      exact ih _ _ _ _ h' hs hr

/-- C8: whenever `parse_string` returns Ok, the returned tree contains
no `Comment` node anywhere. -/
theorem claim_C8 (s : Str) (e : Element) (h : parse_string s = .ok e) :
    commentFreeEl e = true := by
  revert h
  show (match runEvents (lex s).1 [] none with
    | .fault => PResult.fault
    | .err er => .err er
    | .fin _ result =>
      match (lex s).2 with
      | some le => .err (lexErrToError le)
      | none =>
        match result with
        | some r => .ok r
        | none => .err .emptyDocument) = .ok e → _
  cases hrun : runEvents (lex s).1 [] none with
  | fault => intro h; exact absurd h (by simp)
  | err er => intro h; exact absurd h (by simp)
  | fin st res =>
    cases hl : (lex s).2 with
    | some le => intro h; exact absurd h (by simp)
    | none =>
      cases res with
      | none => intro h; exact absurd h (by simp)
      | some root =>
        intro h
        have hre : root = e := by
          have : PResult.ok root = .ok e := h
          cases this
          rfl
        subst hre
        exact (runEvents_commentFree (lex s).1 [] none st (some root) hrun
          (by simp) (fun _ hx => absurd hx (by simp))).2 root rfl

/-- Witness for C8 at a concrete parse. -/
theorem claim_C8_witness :
    commentFreeEl
      (.mk "a".toList [] (.cons (.element (.mk "b".toList [] .nil)) .nil)) = true :=
  claim_C8 "<a><b/></a>".toList _ rfl

/-- C1 (counterexample): the claim fails for a childless root.  The
compact serializer renders `Element::new("a")` as `<a />` and the
pretty serializer as `<a />\n`; on both strings the parser faults on
`stack.pop().unwrap()` (the `Event::Empty` arm pops a parent that does
not exist) instead of returning the tree back. -/
theorem claim_C1_cex :
    Element.toStr (Element.new "a".toList) = "<a />".toList ∧
    parse_string (Element.toStr (Element.new "a".toList)) = .fault ∧
    Element.to_pretty_string (Element.new "a".toList) = "<a />\n".toList ∧
    parse_string (Element.to_pretty_string (Element.new "a".toList)) = .fault :=
  ⟨rfl, rfl, rfl, rfl⟩

/-- C1 (amended): for every wellformed tree `t` built only from tags,
attributes, text and child elements (no comments: `wfEl`) **with at
least one child at the root**, parsing the compact serialization and
parsing the pretty serialization both return `Ok` of the canonical
tree `canonEl t` (the same tree with attribute lists sorted), and that
tree is structurally equal to `t`: same tag name, same attribute
key-to-value mapping, same ordered children, recursively.  The
childless-root restriction is forced by the code: see the
counterexample above. -/
theorem claim_C1 (t : Element) (hwf : wfEl t = true)
    (hne : t.children.isNil = false) :
    parse_string (Element.toStr t) = .ok (canonEl t) ∧
    parse_string (Element.to_pretty_string t) = .ok (canonEl t) ∧
    equivEl (canonEl t) t = true := by
  refine ⟨?_, ?_, equivEl_canon t hwf⟩
  · obtain ⟨nm, attrs, kids⟩ := t
    cases kids with
    | nil => exact Bool.noConfusion hne
    | cons n ks =>
      apply parse_string_ok _
        (eventsOfEl (Element.mk nm attrs (NodeList.cons n ks))) []
      · exact lex_compact _ hwf
      · have h := runEl_root nm attrs n ks hwf [] none
        rw [List.append_nil] at h
        exact h
  · obtain ⟨nm, attrs, kids⟩ := t
    cases kids with
    | nil => exact Bool.noConfusion hne
    | cons n ks =>
      apply parse_string_ok _
        ((if (Element.mk nm attrs (NodeList.cons n ks)).name == "svg".toList
          then ([.otherE, .otherE] : List XEvent) else []) ++
          eventsOfEl (Element.mk nm attrs (NodeList.cons n ks))) []
      · exact lex_pretty_gen _ hwf
      · rw [runEvents_pre]
        have h := runEl_root nm attrs n ks hwf [] none
        rw [List.append_nil] at h
        exact h

/-- Witness for C1 at a concrete svg tree with two attributes, an
element child and a text child. -/
theorem claim_C1_witness :
    wfEl claim1Tree = true ∧ claim1Tree.children.isNil = false ∧
    (parse_string (Element.toStr claim1Tree) = .ok (canonEl claim1Tree) ∧
      parse_string (Element.to_pretty_string claim1Tree) =
        .ok (canonEl claim1Tree) ∧
      equivEl (canonEl claim1Tree) claim1Tree = true) :=
  ⟨by decide, by decide, claim_C1 claim1Tree (by decide) (by decide)⟩

/-- C9: when the input is the concatenation of the compact
serializations of several complete top-level roots, `parse_string`
returns `Ok` of the last root (canonicalized), silently discarding
every earlier completed root rather than reporting an error about
trailing content. -/
theorem claim_C9 (ts : List Element) (t : Element)
    (hall : ∀ u ∈ ts ++ [t], wfEl u = true ∧ u.children.isNil = false) :
    parse_string ((ts ++ [t]).flatMap Element.toStr) = .ok (canonEl t) := by
  apply parse_string_ok _ ((ts ++ [t]).flatMap eventsOfEl) [] (canonEl t)
  · exact lexP_roots (ts ++ [t]) (fun u hu => (hall u hu).1)
  · rw [runRoots (ts ++ [t]) none hall, List.foldl_append]
    rfl

/-- Witness for C9: two concrete roots in sequence; the parse returns
the second and discards the first. -/
theorem claim_C9_witness :
    (∀ u ∈ [claim9A] ++ [claim9B], wfEl u = true ∧
      u.children.isNil = false) ∧
    parse_string (([claim9A] ++ [claim9B]).flatMap Element.toStr) =
      .ok (canonEl claim9B) :=
  ⟨by decide, claim_C9 [claim9A] claim9B (by decide)⟩

end Esvg

